import Mathlib

/-!
# Shallow embedding of `disk_analyzer.py` (hanov/spacetool)

This file models the core algorithms of the repository's single source file
`src/disk_analyzer.py`:

* `calculate_actual_total` (lines 346-374): leaf/parent classification of
  directory records and the double-counting-avoiding total;
* `find_duplicates` (lines 112-242): the two-stage duplicate-detection
  pipeline (size bucketing, quick hash over the first 8192 bytes, full hash,
  group extraction and sorting), in both the hashing mode (`use_md5=True`)
  and the size-only mode (`use_md5=False`);
* the wasted-space computation of `save_detailed_logs` (lines 384-387).

Modelling conventions:

* Python `str` paths are Lean `String`s; `os.path.dirname` (POSIX) is
  re-implemented character-exactly as `dirname` below.
* File contents live in an explicit filesystem `fs : String → Option (List Nat)`;
  `none` models any `PermissionError / OSError / IOError` on `open`/`read`
  (the source catches exactly these and returns `None`).  MD5 is an
  uninterpreted parameter `md5 : List Nat → String`; the source's streaming
  `hash_obj.update` over 64 KiB chunks hashes the concatenation of the chunks,
  i.e. the whole content, so `calculate_full_hash` applies `md5` to the whole
  content.
* Python `dict`/`defaultdict` preserve key insertion order; they are modelled
  by association lists (`groupPairs`) where a new key is appended at the end
  and a value is appended at the end of its key's list, exactly the order
  produced by `defaultdict(list)` with `append`.
* Python's `sorted`/`list.sort` is a stable sort; a stable sort for a total
  preorder is extensionally unique, so it is modelled by the structurally
  recursive stable insertion sort `stableSort` (kernel-computable, unlike
  well-founded `List.mergeSort`).  String comparison in sort keys is Python's
  code-point lexicographic order, implemented computably as `lexLe`.
* `pool.imap_unordered` delivers per-file results in an arbitrary arrival
  order.  `find_duplicatesOrd` takes the two arrival orders as explicit
  reordering functions (`qord` for the quick-hash stage, `ford` for the
  full-hash stage); the sequential `≤ 1000` branch of the source is the
  special case `qord = ford = id`.  Per-file work is independent of arrival
  order, so permuting results equals permuting tasks.
* The `while parent and parent in all_paths` loop of
  `calculate_actual_total` is modelled with explicit fuel
  `path.length + 1`.  Whenever the Python loop terminates, each step strictly
  shortens the path (`dirname` returns a proper prefix unless its argument is
  all slashes, in which case the Python loop would not terminate at all), so
  this fuel is sufficient and the model agrees with the source on every
  terminating input.
-/

namespace DiskAnalyzer

/-! ## POSIX `os.path.dirname` -/

/-- Character-list core of POSIX `os.path.dirname`:
`head = p[:p.rfind('/') + 1]`, then strip trailing slashes unless `head`
consists only of slashes. -/
def dirnameChars (l : List Char) : List Char :=
  let head := (l.reverse.dropWhile (fun c => c ≠ '/')).reverse
  if head ≠ [] ∧ ¬ head.all (fun c => c = '/') then
    (head.reverse.dropWhile (fun c => c = '/')).reverse
  else head

/-- POSIX `os.path.dirname` on strings (Python `posixpath.dirname`). -/
def dirname (p : String) : String :=
  ⟨dirnameChars p.data⟩

/-- Iterated `dirname`: `dirnameIter (k+1) p` walks one step up first. -/
def dirnameIter : Nat → String → String
  | 0, p => p
  | k + 1, p => dirnameIter k (dirname p)

/-! ## Records (the `dict` entries built by `analyze_directory`) -/

/-- A directory record as appended to `folder_data` (lines 301-307). -/
structure DirRecord where
  path : String
  size : Nat
  modified : Nat := 0
  created : Nat := 0
  depth : Nat := 0
deriving DecidableEq, Repr

/-- A file record as appended to `file_data` (lines 285-291); `hash` is absent
(`none`) until `_full_hash_worker` sets it (line 107 / line 222). -/
structure FileRecord where
  path : String
  size : Nat
  name : String := ""
  modified : Nat := 0
  extension : String := ""
  hash : Option String := none
deriving DecidableEq, Repr, Inhabited

/-! ## Python's stable sort and string comparison -/

/-- Code-point lexicographic `≤` on character lists: Python's `str` comparison
used by `sorted(..., key=lambda x: x['path'])`. -/
def lexLe : List Char → List Char → Bool
  | [], _ => true
  | _ :: _, [] => false
  | a :: as, b :: bs =>
    if a.toNat < b.toNat then true
    else if b.toNat < a.toNat then false
    else lexLe as bs

/-- Stable insertion of `x` into `l`: `x` is placed before the first element
that is not strictly below it, so earlier-arriving elements stay before
later-arriving equal ones. -/
def insertStable (le : α → α → Bool) (x : α) : List α → List α
  | [] => [x]
  | y :: ys =>
    if le y x && ! le x y then y :: insertStable le x ys
    else x :: y :: ys

/-- Stable sort; models Python `sorted` / `list.sort`, which are stable.  For
a total, transitive comparator a stable sort is extensionally unique, so this
insertion sort agrees with CPython's Timsort. -/
def stableSort (le : α → α → Bool) : List α → List α
  | [] => []
  | x :: xs => insertStable le x (stableSort le xs)

/-- Python key comparison `a['path'] <= b['path']` for member sorting. -/
def pathLe (a b : FileRecord) : Bool :=
  lexLe a.path.data b.path.data

/-- `sorted(files, key=lambda x: x['path'])` (lines 144, 231). -/
def sortByPath (files : List FileRecord) : List FileRecord :=
  stableSort pathLe files

/-! ## `calculate_actual_total` (lines 346-374) -/

/-- The `while parent and parent in all_paths` loop body (lines 362-364):
collect the parents marked while walking up from one starting parent.  `fuel`
bounds the number of iterations; see the module docstring. -/
def markParents (allPaths : List String) : String → Nat → List String
  | _, 0 => []
  | parent, fuel + 1 =>
    if parent ≠ "" ∧ parent ∈ allPaths then
      parent :: markParents allPaths (dirname parent) fuel
    else []

/-- The `parent_paths` set (lines 357-364): union over every tracked path of
the parents collected by walking upward from it. -/
def parentPaths (allPaths : List String) : List String :=
  (allPaths.map (fun p => markParents allPaths (dirname p) (p.length + 1))).flatten

/-- First-occurrence deduplication; models the key set of the
`path_to_folder` dict (a Python dict keeps the first insertion position of a
key, later assignments only overwrite the value). -/
def dedupFirst [DecidableEq α] : List α → List α
  | [] => []
  | x :: xs => x :: (dedupFirst xs).filter (fun y => y ≠ x)

/-- `path_to_folder[path]` (line 352): later records overwrite earlier ones
with the same path, so look up the last matching record. -/
def lookupLast (folder_data : List DirRecord) (p : String) : Option DirRecord :=
  folder_data.reverse.find? (fun f => f.path = p)

/-- `calculate_actual_total` (lines 346-374).  Python iterates the *set*
`all_paths`, whose order is unspecified; the model fixes first-occurrence
order, and every claim below depends only on membership and on the (order
independent) size sum. -/
def calculate_actual_total (folder_data : List DirRecord) :
    Nat × List DirRecord :=
  if folder_data = [] then (0, [])
  else
    let all_paths := dedupFirst (folder_data.map (fun f => f.path))
    let parent_paths := parentPaths all_paths
    let leaf_or_independent :=
      (all_paths.filter (fun p => p ∉ parent_paths)).filterMap
        (fun p => lookupLast folder_data p)
    ((leaf_or_independent.map (fun f => f.size)).sum, leaf_or_independent)

/-! ## Hashing primitives (lines 64-109)

`fs : String → Option (List Nat)` is the filesystem: `fs p = none` models an
unreadable file (permission denied, I/O error, vanished file) — exactly the
exceptions caught on lines 74 and 89 — and `some content` its byte content.
`md5` is the uninterpreted hex digest. -/

/-- `calculate_quick_hash` (lines 64-75): MD5 of only the first 8192 bytes,
`None` when the file cannot be read. -/
def calculate_quick_hash (md5 : List Nat → String) (fs : String → Option (List Nat))
    (file_path : String) (_size : Nat) : Option String :=
  (fs file_path).map (fun content => md5 (content.take 8192))

/-- `calculate_full_hash` (lines 78-90): MD5 of the entire content (streamed
in 64 KiB chunks in the source, which hashes their concatenation), `None`
when the file cannot be read. -/
def calculate_full_hash (md5 : List Nat → String) (fs : String → Option (List Nat))
    (file_path : String) (_size : Nat) : Option String :=
  (fs file_path).map (fun content => md5 content)

/-! ## Insertion-ordered dictionaries (`defaultdict(list)`) -/

/-- `d[k].append(v)` on a `defaultdict(list)`: append `v` to the existing
key's list, or append a fresh key at the end (Python dicts iterate in key
insertion order). -/
def groupAdd [DecidableEq κ] (k : κ) (v : α) :
    List (κ × List α) → List (κ × List α)
  | [] => [(k, [v])]
  | (k', vs) :: rest =>
    if k' = k then (k', vs ++ [v]) :: rest
    else (k', vs) :: groupAdd k v rest

/-- Build a `defaultdict(list)` from `(key, value)` pairs in arrival order. -/
def groupPairs [DecidableEq κ] (ps : List (κ × α)) : List (κ × List α) :=
  ps.foldl (fun acc p => groupAdd p.1 p.2 acc) []

/-! ## `find_duplicates` (lines 112-242), stage by stage -/

/-- The `(size, file)` stream feeding `size_groups` (lines 123-126): files of
size `≥ 1024` ("Skip files < 1KB"), keyed by exact size. -/
def sizePairs (file_data : List FileRecord) : List (Nat × FileRecord) :=
  file_data.filterMap
    (fun f => if 1024 ≤ f.size then some (f.size, f) else none)

/-- Step 1 (lines 122-126): `size_groups`, a `defaultdict` over sizes. -/
def size_groups (file_data : List FileRecord) : List (Nat × List FileRecord) :=
  groupPairs (sizePairs file_data)

/-- Line 129: keep only size buckets with 2+ files. -/
def potential_duplicates (file_data : List FileRecord) :
    List (Nat × List FileRecord) :=
  (size_groups file_data).filter (fun p => 1 < p.2.length)

/-- Line 155: the quick-hash task list, buckets in dict order, files in bucket
order (the unused second tuple component `f['size']` is dropped). -/
def hash_tasks (file_data : List FileRecord) : List FileRecord :=
  ((potential_duplicates file_data).map (fun p => p.2)).flatten

/-- One quick-hash result (`_quick_hash_worker`, lines 93-99, and the
sequential loop, lines 174-177): key `(size, quick_hash)` and the unchanged
record; `none` when the hash is `None` or falsy (empty). -/
def quickResult (md5 : List Nat → String) (fs : String → Option (List Nat))
    (f : FileRecord) : Option ((Nat × String) × FileRecord) :=
  match calculate_quick_hash md5 fs f.path f.size with
  | some h => if h = "" then none else some ((f.size, h), f)
  | none => none

/-- The keyed quick-hash results in arrival order (`qord` models
`imap_unordered`; `qord = id` is the sequential branch). -/
def quickPairs (md5 : List Nat → String) (fs : String → Option (List Nat))
    (qord : List FileRecord → List FileRecord) (file_data : List FileRecord) :
    List ((Nat × String) × FileRecord) :=
  (qord (hash_tasks file_data)).filterMap (quickResult md5 fs)

/-- `quick_hash_groups` (lines 154-177). -/
def quick_hash_groups (md5 : List Nat → String) (fs : String → Option (List Nat))
    (qord : List FileRecord → List FileRecord) (file_data : List FileRecord) :
    List ((Nat × String) × List FileRecord) :=
  groupPairs (quickPairs md5 fs qord file_data)

/-- Lines 179-183: files whose `(size, quick_hash)` class has 2+ members, in
dict order. -/
def files_needing_full_hash (md5 : List Nat → String)
    (fs : String → Option (List Nat)) (qord : List FileRecord → List FileRecord)
    (file_data : List FileRecord) : List FileRecord :=
  (((quick_hash_groups md5 fs qord file_data).filter
      (fun p => 2 ≤ p.2.length)).map (fun p => p.2)).flatten

/-- One full-hash result (`_full_hash_worker`, lines 102-109, and the
sequential loop, lines 219-223): sets `file_info['hash'] = full_hash` and
keys by `(size, full_hash)`. -/
def fullResult (md5 : List Nat → String) (fs : String → Option (List Nat))
    (f : FileRecord) : Option ((Nat × String) × FileRecord) :=
  match calculate_full_hash md5 fs f.path f.size with
  | some h => if h = "" then none else some ((f.size, h), { f with hash := some h })
  | none => none

/-- The keyed full-hash results in arrival order `ford`. -/
def fullPairs (md5 : List Nat → String) (fs : String → Option (List Nat))
    (qord ford : List FileRecord → List FileRecord) (file_data : List FileRecord) :
    List ((Nat × String) × FileRecord) :=
  (ford (files_needing_full_hash md5 fs qord file_data)).filterMap
    (fullResult md5 fs)

/-- `full_hash_groups` (lines 194-223) with explicit arrival order `ford`. -/
def full_hash_groups (md5 : List Nat → String) (fs : String → Option (List Nat))
    (qord ford : List FileRecord → List FileRecord) (file_data : List FileRecord) :
    List ((Nat × String) × List FileRecord) :=
  groupPairs (fullPairs md5 fs qord ford file_data)

/-- Group extraction loop (lines 226-233): for each dict entry with 2+ files,
append the path-sorted group and extend the flat `duplicates` list. -/
def extractGroups : List ((Nat × String) × List FileRecord) →
    List FileRecord × List (List FileRecord)
  | [] => ([], [])
  | (_, g) :: rest =>
    if 2 ≤ g.length then
      (sortByPath g ++ (extractGroups rest).1, sortByPath g :: (extractGroups rest).2)
    else extractGroups rest

/-- The group sort key of lines 148 and 236: `len(group) * group[0]['size']`. -/
def groupKey (g : List FileRecord) : Nat :=
  g.length * (g.headD default).size

/-- `duplicate_groups.sort(key=lambda group: len(group) * group[0]['size'],
reverse=True)` (lines 148, 235-238): stable descending sort. -/
def sortGroups (gs : List (List FileRecord)) : List (List FileRecord) :=
  stableSort (fun a b => decide (groupKey b ≤ groupKey a)) gs

/-- Size-only extraction loop (lines 141-146): every bucket becomes a
path-sorted group (buckets already have 2+ members). -/
def extractAllBuckets : List (Nat × List FileRecord) →
    List FileRecord × List (List FileRecord)
  | [] => ([], [])
  | (_, g) :: rest =>
    (sortByPath g ++ (extractAllBuckets rest).1, sortByPath g :: (extractAllBuckets rest).2)

/-- `find_duplicates` (lines 112-242) with explicit arrival orders for the two
parallel stages.  Returns `(duplicates, duplicate_groups)`. -/
def find_duplicatesOrd (md5 : List Nat → String) (fs : String → Option (List Nat))
    (file_data : List FileRecord) (use_md5 : Bool)
    (qord ford : List FileRecord → List FileRecord) :
    List FileRecord × List (List FileRecord) :=
  if (potential_duplicates file_data).isEmpty then ([], [])
  else if ¬ use_md5 then
    ((extractAllBuckets (potential_duplicates file_data)).1,
      sortGroups (extractAllBuckets (potential_duplicates file_data)).2)
  else if (files_needing_full_hash md5 fs qord file_data).isEmpty then ([], [])
  else
    ((extractGroups (full_hash_groups md5 fs qord ford file_data)).1,
      sortGroups (extractGroups (full_hash_groups md5 fs qord ford file_data)).2)

/-- `find_duplicates` with results collected in submission order (the
sequential branches of the source; any single deterministic run of the
parallel branches corresponds to some choice of `qord`/`ford`). -/
def find_duplicates (md5 : List Nat → String) (fs : String → Option (List Nat))
    (file_data : List FileRecord) (use_md5 : Bool) :
    List FileRecord × List (List FileRecord) :=
  find_duplicatesOrd md5 fs file_data use_md5 id id

/-- `wasted_space` (lines 384-387 of `save_detailed_logs`, identical on lines
478-481 and 1519-1522): `sum(sum(f['size'] for f in group[1:]) for group in
duplicate_groups)`. -/
def wasted_space (duplicate_groups : List (List FileRecord)) : Nat :=
  (duplicate_groups.map (fun g => ((g.drop 1).map (fun f => f.size)).sum)).sum

/-! ## Lemmas about `lexLe` (a total preorder, antisymmetric) -/

theorem lexLe_refl (l : List Char) : lexLe l l = true := by
  induction l with
  | nil => rfl
  | cons a as ih => simp [lexLe, ih]

theorem lexLe_total (l₁ l₂ : List Char) : lexLe l₁ l₂ = true ∨ lexLe l₂ l₁ = true := by
  induction l₁ generalizing l₂ with
  | nil => exact Or.inl rfl
  | cons a as ih =>
    cases l₂ with
    | nil => exact Or.inr rfl
    | cons b bs =>
      rcases Nat.lt_trichotomy a.toNat b.toNat with h | h | h
      · exact Or.inl (by simp [lexLe, h])
      · rcases ih bs with h2 | h2
        · exact Or.inl (by simp [lexLe, h, h2])
        · exact Or.inr (by simp [lexLe, h, h2])
      · exact Or.inr (by simp [lexLe, h])

theorem lexLe_trans {l₁ l₂ l₃ : List Char} (h12 : lexLe l₁ l₂ = true)
    (h23 : lexLe l₂ l₃ = true) : lexLe l₁ l₃ = true := by
  induction l₁ generalizing l₂ l₃ with
  | nil => rfl
  | cons a as ih =>
    cases l₂ with
    | nil => simp [lexLe] at h12
    | cons b bs =>
      cases l₃ with
      | nil => simp [lexLe] at h23
      | cons c cs =>
        simp only [lexLe] at h12 h23 ⊢
        rcases Nat.lt_trichotomy a.toNat b.toNat with hab | hab | hab
        · rcases Nat.lt_trichotomy b.toNat c.toNat with hbc | hbc | hbc
          · simp [Nat.lt_trans hab hbc]
          · simp [hbc ▸ hab]
          · simp [hbc, Nat.lt_asymm hbc] at h23
        · rw [hab]
          rw [hab] at h12
          simp only [Nat.lt_irrefl, if_false] at h12
          rcases Nat.lt_trichotomy b.toNat c.toNat with hbc | hbc | hbc
          · simp [hbc]
          · rw [hbc]
            rw [hbc] at h23
            simp only [Nat.lt_irrefl, if_false] at h23 ⊢
            exact ih h12 h23
          · simp [hbc, Nat.lt_asymm hbc] at h23
        · simp [hab, Nat.lt_asymm hab] at h12

theorem lexLe_antisymm {l₁ l₂ : List Char} (h12 : lexLe l₁ l₂ = true)
    (h21 : lexLe l₂ l₁ = true) : l₁ = l₂ := by
  induction l₁ generalizing l₂ with
  | nil =>
    cases l₂ with
    | nil => rfl
    | cons b bs => simp [lexLe] at h21
  | cons a as ih =>
    cases l₂ with
    | nil => simp [lexLe] at h12
    | cons b bs =>
      simp only [lexLe] at h12 h21
      rcases Nat.lt_trichotomy a.toNat b.toNat with hab | hab | hab
      · simp [hab, Nat.lt_asymm hab] at h21
      · have hc : a = b := Char.ext (UInt32.ext hab)
        subst hc
        simp only [Nat.lt_irrefl, if_false] at h12 h21
        exact congrArg (a :: ·) (ih h12 h21)
      · simp [hab, Nat.lt_asymm hab] at h12

/-! ## Lemmas about `stableSort` -/

theorem insertStable_perm (le : α → α → Bool) (x : α) (l : List α) :
    (insertStable le x l).Perm (x :: l) := by
  induction l with
  | nil => exact List.Perm.refl _
  | cons y ys ih =>
    cases h : (le y x && ! le x y) with
    | true => simpa [insertStable, h] using ((ih.cons y).trans (List.Perm.swap x y ys))
    | false => simp [insertStable, h]

theorem stableSort_perm (le : α → α → Bool) (l : List α) :
    (stableSort le l).Perm l := by
  induction l with
  | nil => exact List.Perm.refl _
  | cons x xs ih => exact (insertStable_perm le x _).trans (ih.cons x)

theorem mem_stableSort (le : α → α → Bool) (l : List α) (a : α) :
    a ∈ stableSort le l ↔ a ∈ l :=
  (stableSort_perm le l).mem_iff

theorem insertStable_pairwise (le : α → α → Bool)
    (htrans : ∀ a b c, le a b = true → le b c = true → le a c = true)
    (htot : ∀ a b, le a b = true ∨ le b a = true) (x : α) (l : List α)
    (hl : l.Pairwise (fun a b => le a b = true)) :
    (insertStable le x l).Pairwise (fun a b => le a b = true) := by
  induction l with
  | nil => simp [insertStable]
  | cons y ys ih =>
    rcases List.pairwise_cons.mp hl with ⟨hy, hys⟩
    cases h : (le y x && ! le x y) with
    | true =>
      rcases Bool.and_eq_true_iff.mp h with ⟨hyx, _⟩
      have hmem : ∀ b ∈ insertStable le x ys, le y b = true := by
        intro b hb
        rcases List.mem_cons.mp ((insertStable_perm le x ys).mem_iff.mp hb) with rfl | hby
        · exact hyx
        · exact hy b hby
      simpa [insertStable, h] using List.pairwise_cons.mpr ⟨hmem, ih hys⟩
    | false =>
      have hxy : le x y = true := by
        rcases htot x y with h1 | h1
        · exact h1
        · rcases Bool.and_eq_false_iff.mp h with h2 | h2
          · exact absurd h1 (by simp [h2])
          · simpa using h2
      have hxb : ∀ b ∈ y :: ys, le x b = true := by
        intro b hb
        rcases List.mem_cons.mp hb with rfl | hb
        · exact hxy
        · exact htrans x y b hxy (hy b hb)
      simpa [insertStable, h] using List.pairwise_cons.mpr ⟨hxb, hl⟩

theorem stableSort_pairwise (le : α → α → Bool)
    (htrans : ∀ a b c, le a b = true → le b c = true → le a c = true)
    (htot : ∀ a b, le a b = true ∨ le b a = true) (l : List α) :
    (stableSort le l).Pairwise (fun a b => le a b = true) := by
  induction l with
  | nil => simp [stableSort]
  | cons x xs ih => exact insertStable_pairwise le htrans htot x _ ih

theorem pathLe_trans (a b c : FileRecord) (h1 : pathLe a b = true)
    (h2 : pathLe b c = true) : pathLe a c = true :=
  lexLe_trans h1 h2

theorem pathLe_total (a b : FileRecord) : pathLe a b = true ∨ pathLe b a = true :=
  lexLe_total _ _

theorem sortByPath_perm (files : List FileRecord) :
    (sortByPath files).Perm files :=
  stableSort_perm pathLe files

theorem sortByPath_pairwise (files : List FileRecord) :
    (sortByPath files).Pairwise (fun a b => pathLe a b = true) :=
  stableSort_pairwise pathLe pathLe_trans pathLe_total files

theorem sortGroups_perm (gs : List (List FileRecord)) :
    (sortGroups gs).Perm gs :=
  stableSort_perm _ gs

theorem sortGroups_pairwise (gs : List (List FileRecord)) :
    (sortGroups gs).Pairwise (fun a b => groupKey b ≤ groupKey a) := by
  have h := stableSort_pairwise (fun a b => decide (groupKey b ≤ groupKey a))
    (fun a b c h1 h2 => by
      simp only [decide_eq_true_eq] at h1 h2 ⊢
      exact le_trans h2 h1)
    (fun a b => by
      rcases le_total (groupKey b) (groupKey a) with h | h
      · exact Or.inl (by simpa using h)
      · exact Or.inr (by simpa using h)) gs
  exact h.imp (fun hab => by simpa using hab)

/-- A unique strictly-sorted arrangement: two sorted permutations of lists
whose path components are pairwise distinct are equal.  Used to show that the
path-sort makes group member order independent of hashing arrival order. -/
theorem sortByPath_eq_of_perm (vs vs' : List FileRecord) (hperm : vs'.Perm vs)
    (hnd : (vs.map (fun f => f.path)).Nodup) :
    sortByPath vs' = sortByPath vs := by
  have hperm2 : (sortByPath vs').Perm (sortByPath vs) :=
    ((sortByPath_perm vs').trans hperm).trans (sortByPath_perm vs).symm
  set R : FileRecord → FileRecord → Prop :=
    fun a b => pathLe a b = true ∧ a.path ≠ b.path with hR
  haveI : IsAntisymm FileRecord R := ⟨by
    rintro a b ⟨hab, hne⟩ ⟨hba, _⟩
    exact absurd (String.ext (lexLe_antisymm hab hba)) hne⟩
  have key : ∀ (ws : List FileRecord), ws.Perm vs →
      ws.Pairwise (fun a b => pathLe a b = true) → ws.Pairwise R := by
    intro ws hws hle
    have hndw : (ws.map (fun f => f.path)).Nodup :=
      ((hws.map (fun f => f.path)).nodup_iff).mpr hnd
    have hne : ws.Pairwise (fun a b => a.path ≠ b.path) :=
      (List.pairwise_map.mp hndw)
    exact hle.and hne
  have h1 : (sortByPath vs').Pairwise R :=
    key _ ((sortByPath_perm vs').trans hperm) (sortByPath_pairwise vs')
  have h2 : (sortByPath vs).Pairwise R :=
    key _ (sortByPath_perm vs) (sortByPath_pairwise vs)
  exact List.eq_of_perm_of_sorted hperm2 h1 h2

/-! ## Lemmas about `dedupFirst` -/

theorem mem_dedupFirst [DecidableEq α] (l : List α) (a : α) :
    a ∈ dedupFirst l ↔ a ∈ l := by
  induction l with
  | nil => simp [dedupFirst]
  | cons x xs ih =>
    simp only [dedupFirst, List.mem_cons, List.mem_filter]
    constructor
    · rintro (rfl | ⟨h1, _⟩)
      · exact Or.inl rfl
      · exact Or.inr (ih.mp h1)
    · rintro (rfl | h)
      · exact Or.inl rfl
      · by_cases hx : a = x
        · exact Or.inl hx
        · exact Or.inr ⟨ih.mpr h, by simpa using hx⟩

theorem dedupFirst_nodup [DecidableEq α] (l : List α) : (dedupFirst l).Nodup := by
  induction l with
  | nil => simp [dedupFirst]
  | cons x xs ih =>
    refine List.nodup_cons.mpr ⟨?_, (dedupFirst xs).filter_sublist.nodup ih⟩
    simp only [List.mem_filter]
    rintro ⟨_, h⟩
    simp at h

theorem dedupFirst_append_singleton [DecidableEq α] (l : List α) (a : α) :
    dedupFirst (l ++ [a]) =
      if a ∈ l then dedupFirst l else dedupFirst l ++ [a] := by
  induction l with
  | nil => simp [dedupFirst]
  | cons x xs ih =>
    rw [List.cons_append, dedupFirst, ih, dedupFirst]
    by_cases hmem : a ∈ xs
    · rw [if_pos hmem, if_pos (List.mem_cons_of_mem x hmem)]
    · by_cases hax : a = x
      · rw [if_neg hmem, if_pos (List.mem_cons.mpr (Or.inl hax)), List.filter_append]
        simp [hax]
      · rw [if_neg hmem, if_neg (by simp [hax, hmem]), List.filter_append]
        simp [hax]

theorem dedupFirst_eq_self [DecidableEq α] {l : List α} (h : l.Nodup) :
    dedupFirst l = l := by
  induction l with
  | nil => rfl
  | cons x xs ih =>
    rcases List.nodup_cons.mp h with ⟨hx, hxs⟩
    rw [dedupFirst, ih hxs, List.filter_eq_self.mpr]
    intro a ha
    simp only [ne_eq, decide_not, Bool.not_eq_true', decide_eq_false_iff_not]
    exact fun he => hx (he ▸ ha)

theorem dedupFirst_perm [DecidableEq α] {l l' : List α} (h : l.Perm l') :
    (dedupFirst l).Perm (dedupFirst l') := by
  refine (List.perm_ext_iff_of_nodup (dedupFirst_nodup l) (dedupFirst_nodup l')).mpr ?_
  intro a
  rw [mem_dedupFirst, mem_dedupFirst]
  exact h.mem_iff

/-! ## Characterization of `groupPairs` (insertion-ordered dict) -/

/-- The values collected under key `k`: exactly the pair payloads arriving
with key `k`, in arrival order. -/
def valsOf [DecidableEq κ] (ps : List (κ × α)) (k : κ) : List α :=
  (ps.filter (fun q => q.1 = k)).map (fun q => q.2)

theorem groupPairs_append_singleton [DecidableEq κ] (ps : List (κ × α)) (p : κ × α) :
    groupPairs (ps ++ [p]) = groupAdd p.1 p.2 (groupPairs ps) := by
  unfold groupPairs
  rw [List.foldl_append]
  rfl

theorem valsOf_append_singleton [DecidableEq κ] (ps : List (κ × α)) (p : κ × α) (k : κ) :
    valsOf (ps ++ [p]) k =
      valsOf ps k ++ (if p.1 = k then [p.2] else []) := by
  unfold valsOf
  rw [List.filter_append, List.map_append]
  by_cases h : p.1 = k
  · simp [h]
  · simp [h]

theorem valsOf_eq_nil_of_not_mem [DecidableEq κ] (ps : List (κ × α)) (k : κ)
    (h : k ∉ ps.map Prod.fst) : valsOf ps k = [] := by
  unfold valsOf
  rw [List.filter_eq_nil_iff.mpr, List.map_nil]
  intro q hq
  simp only [decide_eq_true_eq]
  intro he
  exact h (he ▸ List.mem_map_of_mem Prod.fst hq)

theorem groupAdd_of_not_mem_keys [DecidableEq κ] (k : κ) (v : α)
    (acc : List (κ × List α)) (h : k ∉ acc.map Prod.fst) :
    groupAdd k v acc = acc ++ [(k, [v])] := by
  induction acc with
  | nil => rfl
  | cons e rest ih =>
    obtain ⟨k2, vs⟩ := e
    simp only [List.map_cons, List.mem_cons] at h
    push_neg at h
    rw [groupAdd, if_neg (fun he => h.1 he.symm), ih h.2, List.cons_append]

theorem groupAdd_map_keys [DecidableEq κ] (v : α) (L : List κ) (hL : L.Nodup) (k : κ)
    (hk : k ∈ L) (f g : κ → List α)
    (hfg : ∀ k' ∈ L, k' ≠ k → g k' = f k') (hgk : g k = f k ++ [v]) :
    groupAdd k v (L.map (fun k' => (k', f k'))) =
      L.map (fun k' => (k', g k')) := by
  induction L with
  | nil => cases hk
  | cons x xs ih =>
    rcases List.nodup_cons.mp hL with ⟨hx, hxs⟩
    by_cases hxk : x = k
    · subst hxk
      rw [List.map_cons, List.map_cons, groupAdd, if_pos rfl, hgk]
      congr 1
      apply List.map_congr_left
      intro k2 hk2
      have h2 := hfg k2 (List.mem_cons_of_mem x hk2) (fun he => hx (he ▸ hk2))
      rw [h2]
    · have hk' : k ∈ xs := by
        rcases List.mem_cons.mp hk with h | h
        · exact absurd h.symm hxk
        · exact h
      rw [List.map_cons, List.map_cons, groupAdd, if_neg hxk,
        ih hxs hk' (fun a ha hne => hfg a (List.mem_cons_of_mem x ha) hne),
        hfg x (List.mem_cons_self x xs) hxk]

/-- Master characterization: a `defaultdict(list)` built from `(key, value)`
pairs is the list of first-occurrence-ordered keys, each paired with its
arrival-ordered value list. -/
theorem groupPairs_eq [DecidableEq κ] (ps : List (κ × α)) :
    groupPairs ps =
      (dedupFirst (ps.map Prod.fst)).map (fun k => (k, valsOf ps k)) := by
  induction ps using List.reverseRecOn with
  | nil => rfl
  | append_singleton ps p ih =>
    rw [groupPairs_append_singleton, ih, List.map_append, List.map_cons,
      List.map_nil, dedupFirst_append_singleton]
    by_cases hmem : p.1 ∈ ps.map Prod.fst
    · rw [if_pos hmem]
      rw [groupAdd_map_keys p.2 _ (dedupFirst_nodup _) p.1
        ((mem_dedupFirst _ _).mpr hmem) (valsOf ps) (valsOf (ps ++ [p]))
        (fun k' _ hne => by
          rw [valsOf_append_singleton, if_neg (fun he => hne he.symm),
            List.append_nil])
        (by rw [valsOf_append_singleton, if_pos rfl])]
    · rw [if_neg hmem]
      rw [groupAdd_of_not_mem_keys p.1 p.2 _
        (by
          rw [List.map_map]
          simpa using fun h => hmem ((mem_dedupFirst _ _).mp h)),
        List.map_append, List.map_cons, List.map_nil]
      congr 1
      · apply List.map_congr_left
        intro k' hk'
        have hne : k' ≠ p.1 := fun he => hmem (he ▸ (mem_dedupFirst _ _).mp hk')
        rw [valsOf_append_singleton, if_neg (fun he => hne he.symm), List.append_nil]
      · rw [valsOf_append_singleton, if_pos rfl,
          valsOf_eq_nil_of_not_mem ps p.1 hmem, List.nil_append]

theorem groupPairs_keys [DecidableEq κ] (ps : List (κ × α)) :
    (groupPairs ps).map Prod.fst = dedupFirst (ps.map Prod.fst) := by
  rw [groupPairs_eq, List.map_map]
  have : (Prod.fst ∘ fun k => (k, valsOf ps k)) = (id : κ → κ) := rfl
  rw [this, List.map_id]

theorem mem_groupPairs_iff [DecidableEq κ] (ps : List (κ × α)) (e : κ × List α) :
    e ∈ groupPairs ps ↔ e.1 ∈ ps.map Prod.fst ∧ e.2 = valsOf ps e.1 := by
  rw [groupPairs_eq]
  constructor
  · intro h
    rcases List.mem_map.mp h with ⟨k, hk, he⟩
    rcases he.symm with rfl
    exact ⟨(mem_dedupFirst _ _).mp hk, rfl⟩
  · rintro ⟨h1, h2⟩
    refine List.mem_map.mpr ⟨e.1, (mem_dedupFirst _ _).mpr h1, ?_⟩
    rw [← h2]

/-! ## Explicit forms of the extraction loops -/

theorem extractGroups_eq (d : List ((Nat × String) × List FileRecord)) :
    extractGroups d =
      (((d.filter (fun e => 2 ≤ e.2.length)).map (fun e => sortByPath e.2)).flatten,
        (d.filter (fun e => 2 ≤ e.2.length)).map (fun e => sortByPath e.2)) := by
  induction d with
  | nil => rfl
  | cons e rest ih =>
    by_cases h : 2 ≤ e.2.length
    · obtain ⟨k, g⟩ := e
      simp only [extractGroups, ih, List.filter_cons, if_pos h]
      simp only [decide_eq_true_eq] at *
      rw [if_pos h]
      simp
    · obtain ⟨k, g⟩ := e
      simp only [extractGroups, ih, List.filter_cons]
      simp only [decide_eq_true_eq] at *
      rw [if_neg h, if_neg h]

theorem extractAllBuckets_eq (d : List (Nat × List FileRecord)) :
    extractAllBuckets d =
      ((d.map (fun e => sortByPath e.2)).flatten, d.map (fun e => sortByPath e.2)) := by
  induction d with
  | nil => rfl
  | cons e rest ih =>
    obtain ⟨k, g⟩ := e
    simp [extractAllBuckets, ih]

/-! ## Per-stage facts about the duplicate pipeline -/

theorem quickResult_spec {md5 : List Nat → String} {fs : String → Option (List Nat)}
    {f : FileRecord} {k : Nat × String} {x : FileRecord}
    (h : quickResult md5 fs f = some (k, x)) :
    x = f ∧ k.1 = f.size ∧ (fs f.path).isSome := by
  unfold quickResult calculate_quick_hash at h
  cases hfs : fs f.path with
  | none =>
    rw [hfs] at h
    cases h
  | some c =>
    rw [hfs] at h
    by_cases he : md5 (c.take 8192) = ""
    · simp only [Option.map_some', if_pos he] at h
      cases h
    · simp only [Option.map_some', if_neg he] at h
      rcases Option.some.inj h with h2
      exact ⟨(congrArg Prod.snd h2).symm,
        (congrArg Prod.fst (congrArg Prod.fst h2)).symm, rfl⟩

theorem fullResult_spec {md5 : List Nat → String} {fs : String → Option (List Nat)}
    {f : FileRecord} {k : Nat × String} {x : FileRecord}
    (h : fullResult md5 fs f = some (k, x)) :
    x.size = k.1 ∧ x.hash = some k.2 ∧ x.path = f.path ∧ k.1 = f.size ∧
      (fs f.path).isSome := by
  unfold fullResult calculate_full_hash at h
  cases hfs : fs f.path with
  | none =>
    rw [hfs] at h
    cases h
  | some c =>
    rw [hfs] at h
    by_cases he : md5 c = ""
    · simp only [Option.map_some', if_pos he] at h
      cases h
    · simp only [Option.map_some', if_neg he] at h
      rcases Option.some.inj h with h2
      have hk : k = (f.size, md5 c) := (congrArg Prod.fst h2).symm
      have hx : x = { f with hash := some (md5 c) } := (congrArg Prod.snd h2).symm
      subst hk
      subst hx
      exact ⟨rfl, rfl, rfl, rfl, rfl⟩

theorem mem_sizePairs {fd : List FileRecord} {q : Nat × FileRecord} :
    q ∈ sizePairs fd ↔ q.2 ∈ fd ∧ 1024 ≤ q.2.size ∧ q.1 = q.2.size := by
  unfold sizePairs
  rw [List.mem_filterMap]
  constructor
  · rintro ⟨f, hf, hq⟩
    by_cases h : 1024 ≤ f.size
    · rw [if_pos h] at hq
      rcases Option.some.inj hq with h2
      subst h2
      exact ⟨hf, h, rfl⟩
    · rw [if_neg h] at hq; cases hq
  · rintro ⟨hmem, hsz, hk⟩
    refine ⟨q.2, hmem, ?_⟩
    rw [if_pos hsz]
    exact congrArg some (Prod.ext hk.symm rfl)

theorem valsOf_sizePairs (fd : List FileRecord) (s : Nat) :
    valsOf (sizePairs fd) s =
      fd.filter (fun f => f.size = s && decide (1024 ≤ f.size)) := by
  induction fd with
  | nil => rfl
  | cons f rest ih =>
    unfold valsOf sizePairs at ih ⊢
    rw [List.filterMap_cons]
    by_cases h : 1024 ≤ f.size
    · rw [if_pos h, List.filter_cons]
      by_cases hs : f.size = s
      · subst hs
        rw [if_pos (by simp), List.map_cons, ih, List.filter_cons,
          if_pos (by simp [h])]
      · rw [if_neg (by simp [hs]), ih, List.filter_cons, if_neg (by simp [hs])]
    · rw [if_neg h, ih, List.filter_cons, if_neg (by simp [h])]

theorem mem_hash_tasks {fd : List FileRecord} {f : FileRecord} :
    f ∈ hash_tasks fd ↔
      f ∈ fd ∧ 1024 ≤ f.size ∧
        2 ≤ (fd.filter (fun g => g.size = f.size && decide (1024 ≤ g.size))).length := by
  unfold hash_tasks potential_duplicates size_groups
  rw [List.mem_flatten]
  constructor
  · rintro ⟨l, hl, hf⟩
    rcases List.mem_map.mp hl with ⟨e, he, rfl⟩
    rcases List.mem_filter.mp he with ⟨he2, hlen⟩
    rcases (mem_groupPairs_iff _ _).mp he2 with ⟨_, hv⟩
    rw [hv, valsOf_sizePairs] at hf
    rcases List.mem_filter.mp hf with ⟨hmem, hp⟩
    simp only [Bool.and_eq_true, decide_eq_true_eq] at hp
    refine ⟨hmem, hp.2, ?_⟩
    rw [hv, valsOf_sizePairs] at hlen
    simp only [decide_eq_true_eq] at hlen
    rw [hp.1]
    omega
  · rintro ⟨hmem, hsz, hcount⟩
    refine ⟨valsOf (sizePairs fd) f.size, ?_, ?_⟩
    · refine List.mem_map.mpr ⟨(f.size, valsOf (sizePairs fd) f.size), ?_, rfl⟩
      refine List.mem_filter.mpr ⟨(mem_groupPairs_iff _ _).mpr ⟨?_, rfl⟩, ?_⟩
      · exact List.mem_map.mpr ⟨(f.size, f), mem_sizePairs.mpr ⟨hmem, hsz, rfl⟩, rfl⟩
      · rw [valsOf_sizePairs]
        simp only [decide_eq_true_eq]
        omega
    · rw [valsOf_sizePairs]
      exact List.mem_filter.mpr ⟨hmem, by simp [hsz]⟩

theorem mem_quickPairs {md5 : List Nat → String} {fs : String → Option (List Nat)}
    {qord : List FileRecord → List FileRecord} {fd : List FileRecord}
    {e : (Nat × String) × FileRecord} (h : e ∈ quickPairs md5 fs qord fd) :
    e.2 ∈ qord (hash_tasks fd) ∧ e.1.1 = e.2.size ∧ (fs e.2.path).isSome := by
  rcases List.mem_filterMap.mp h with ⟨f, hf, hq⟩
  obtain ⟨k, x⟩ := e
  rcases quickResult_spec hq with ⟨rfl, hk, hs⟩
  exact ⟨hf, hk, hs⟩

theorem mem_files_needing {md5 : List Nat → String} {fs : String → Option (List Nat)}
    {qord : List FileRecord → List FileRecord} {fd : List FileRecord}
    {f : FileRecord} (h : f ∈ files_needing_full_hash md5 fs qord fd) :
    f ∈ qord (hash_tasks fd) ∧ (fs f.path).isSome := by
  unfold files_needing_full_hash quick_hash_groups at h
  rcases List.mem_flatten.mp h with ⟨l, hl, hf⟩
  rcases List.mem_map.mp hl with ⟨e, he, rfl⟩
  rcases List.mem_filter.mp he with ⟨he2, _⟩
  rcases (mem_groupPairs_iff _ _).mp he2 with ⟨_, hv⟩
  rw [hv] at hf
  unfold valsOf at hf
  rcases List.mem_map.mp hf with ⟨q, hq, rfl⟩
  rcases List.mem_filter.mp hq with ⟨hq2, _⟩
  rcases mem_quickPairs hq2 with ⟨h1, _, h3⟩
  exact ⟨h1, h3⟩

theorem mem_full_hash_groups {md5 : List Nat → String} {fs : String → Option (List Nat)}
    {qord ford : List FileRecord → List FileRecord} {fd : List FileRecord}
    {e : (Nat × String) × List FileRecord}
    (he : e ∈ full_hash_groups md5 fs qord ford fd) :
    ∀ x ∈ e.2, x.size = e.1.1 ∧ x.hash = some e.1.2 ∧ (fs x.path).isSome ∧
      ∃ f ∈ ford (files_needing_full_hash md5 fs qord fd),
        fullResult md5 fs f = some (e.1, x) := by
  intro x hx
  rcases (mem_groupPairs_iff _ _).mp he with ⟨_, hv⟩
  rw [hv] at hx
  unfold valsOf at hx
  rcases List.mem_map.mp hx with ⟨q, hq, rfl⟩
  obtain ⟨qk, qx⟩ := q
  rcases List.mem_filter.mp hq with ⟨hq2, hk⟩
  simp only [decide_eq_true_eq] at hk
  rcases List.mem_filterMap.mp hq2 with ⟨f, hf, hres⟩
  rw [hk] at hres
  rcases fullResult_spec hres with ⟨h1, h2, hp, _, h5⟩
  exact ⟨h1, h2, hp ▸ h5, f, hf, hres⟩

/-! ## Branch normal forms of `find_duplicatesOrd` -/

theorem find_dup_guard1 {md5 : List Nat → String} {fs : String → Option (List Nat)}
    {fd : List FileRecord} {use : Bool}
    {qord ford : List FileRecord → List FileRecord}
    (h1 : (potential_duplicates fd).isEmpty) :
    find_duplicatesOrd md5 fs fd use qord ford = ([], []) := by
  unfold find_duplicatesOrd
  rw [if_pos h1]

theorem find_dup_false_eq {md5 : List Nat → String} {fs : String → Option (List Nat)}
    {fd : List FileRecord} {qord ford : List FileRecord → List FileRecord}
    (h1 : ¬ (potential_duplicates fd).isEmpty) :
    find_duplicatesOrd md5 fs fd false qord ford =
      ((extractAllBuckets (potential_duplicates fd)).1,
        sortGroups (extractAllBuckets (potential_duplicates fd)).2) := by
  unfold find_duplicatesOrd
  rw [if_neg h1, if_pos (by simp)]

theorem find_dup_guard3 {md5 : List Nat → String} {fs : String → Option (List Nat)}
    {fd : List FileRecord} {qord ford : List FileRecord → List FileRecord}
    (h3 : (files_needing_full_hash md5 fs qord fd).isEmpty) :
    find_duplicatesOrd md5 fs fd true qord ford = ([], []) := by
  unfold find_duplicatesOrd
  by_cases h1 : (potential_duplicates fd).isEmpty
  · rw [if_pos h1]
  · rw [if_neg h1, if_neg (by simp), if_pos h3]

theorem find_dup_true_eq {md5 : List Nat → String} {fs : String → Option (List Nat)}
    {fd : List FileRecord} {qord ford : List FileRecord → List FileRecord}
    (h1 : ¬ (potential_duplicates fd).isEmpty)
    (h3 : ¬ (files_needing_full_hash md5 fs qord fd).isEmpty) :
    find_duplicatesOrd md5 fs fd true qord ford =
      ((extractGroups (full_hash_groups md5 fs qord ford fd)).1,
        sortGroups (extractGroups (full_hash_groups md5 fs qord ford fd)).2) := by
  unfold find_duplicatesOrd
  rw [if_neg h1, if_neg (by simp), if_neg h3]

/-! ## Group origin lemmas -/

theorem mem_groups_hash {md5 : List Nat → String} {fs : String → Option (List Nat)}
    {fd : List FileRecord} {qord ford : List FileRecord → List FileRecord}
    {g : List FileRecord}
    (hg : g ∈ (find_duplicatesOrd md5 fs fd true qord ford).2) :
    ∃ e ∈ full_hash_groups md5 fs qord ford fd,
      2 ≤ e.2.length ∧ g = sortByPath e.2 := by
  by_cases h1 : (potential_duplicates fd).isEmpty
  · rw [find_dup_guard1 h1] at hg; cases hg
  by_cases h3 : (files_needing_full_hash md5 fs qord fd).isEmpty
  · rw [find_dup_guard3 h3] at hg; cases hg
  rw [find_dup_true_eq h1 h3] at hg
  have hg2 := (sortGroups_perm _).mem_iff.mp hg
  rw [extractGroups_eq] at hg2
  rcases List.mem_map.mp hg2 with ⟨e, he, rfl⟩
  rcases List.mem_filter.mp he with ⟨he2, hlen⟩
  simp only [decide_eq_true_eq] at hlen
  exact ⟨e, he2, hlen, rfl⟩

theorem mem_groups_sizeonly {md5 : List Nat → String} {fs : String → Option (List Nat)}
    {fd : List FileRecord} {qord ford : List FileRecord → List FileRecord}
    {g : List FileRecord}
    (hg : g ∈ (find_duplicatesOrd md5 fs fd false qord ford).2) :
    ∃ e ∈ potential_duplicates fd, 2 ≤ e.2.length ∧ g = sortByPath e.2 := by
  by_cases h1 : (potential_duplicates fd).isEmpty
  · rw [find_dup_guard1 h1] at hg; cases hg
  rw [find_dup_false_eq h1] at hg
  have hg2 := (sortGroups_perm _).mem_iff.mp hg
  rw [extractAllBuckets_eq] at hg2
  rcases List.mem_map.mp hg2 with ⟨e, he, rfl⟩
  rcases List.mem_filter.mp he with ⟨_, hlen⟩
  simp only [decide_eq_true_eq] at hlen
  exact ⟨e, he, by omega, rfl⟩

theorem out_flat_perm (md5 : List Nat → String) (fs : String → Option (List Nat))
    (fd : List FileRecord) (use : Bool)
    (qord ford : List FileRecord → List FileRecord) :
    (find_duplicatesOrd md5 fs fd use qord ford).1.Perm
      ((find_duplicatesOrd md5 fs fd use qord ford).2.flatten) := by
  by_cases h1 : (potential_duplicates fd).isEmpty
  · rw [find_dup_guard1 h1]; exact List.Perm.refl _
  cases use with
  | false =>
    rw [find_dup_false_eq h1, extractAllBuckets_eq]
    exact ((sortGroups_perm _).flatten).symm
  | true =>
    by_cases h3 : (files_needing_full_hash md5 fs qord fd).isEmpty
    · rw [find_dup_guard3 h3]; exact List.Perm.refl _
    · rw [find_dup_true_eq h1 h3, extractGroups_eq]
      exact ((sortGroups_perm _).flatten).symm

/-! ## Group invariants -/

theorem mem_potential_duplicates {fd : List FileRecord} {e : Nat × List FileRecord}
    (he : e ∈ potential_duplicates fd) :
    2 ≤ e.2.length ∧ ∀ x ∈ e.2, x ∈ fd ∧ x.size = e.1 ∧ 1024 ≤ x.size := by
  rcases List.mem_filter.mp he with ⟨he2, hlen⟩
  simp only [decide_eq_true_eq] at hlen
  rcases (mem_groupPairs_iff _ _).mp he2 with ⟨_, hv⟩
  refine ⟨by omega, ?_⟩
  intro x hx
  rw [hv, valsOf_sizePairs] at hx
  rcases List.mem_filter.mp hx with ⟨hmem, hp⟩
  simp only [Bool.and_eq_true, decide_eq_true_eq] at hp
  exact ⟨hmem, hp.1, hp.2⟩

/-- Uniform sizes in a list give a closed-form size sum. -/
theorem sum_map_size_of_uniform {l : List FileRecord} {s : Nat}
    (h : ∀ x ∈ l, x.size = s) : (l.map (fun f => f.size)).sum = l.length * s := by
  induction l with
  | nil => simp
  | cons x xs ih =>
    rw [List.map_cons, List.sum_cons, List.length_cons,
      h x (List.mem_cons_self x xs), ih (fun y hy => h y (List.mem_cons_of_mem x hy))]
    ring

theorem headD_mem {l : List FileRecord} (h : l ≠ []) : l.headD default ∈ l := by
  cases l with
  | nil => exact absurd rfl h
  | cons x xs => exact List.mem_cons_self x xs

/-- Every emitted group, in either mode, has 2+ members that all share one
size; in hashing mode they also share one set `hash`, and in size-only mode
every member is an input record below no threshold violation. -/
theorem group_shape {md5 : List Nat → String} {fs : String → Option (List Nat)}
    {fd : List FileRecord} {use : Bool} {qord ford : List FileRecord → List FileRecord}
    {g : List FileRecord} (hg : g ∈ (find_duplicatesOrd md5 fs fd use qord ford).2) :
    2 ≤ g.length ∧ g.Pairwise (fun a b => pathLe a b = true) ∧
      ((∃ s h, ∀ x ∈ g, x.size = s ∧ x.hash = some h) ∨
        (∃ s, ∀ x ∈ g, x.size = s ∧ x ∈ fd ∧ 1024 ≤ x.size)) := by
  cases use with
  | true =>
    rcases mem_groups_hash hg with ⟨e, he, hlen, rfl⟩
    have hperm := sortByPath_perm e.2
    refine ⟨by rw [hperm.length_eq]; exact hlen, sortByPath_pairwise e.2, ?_⟩
    refine Or.inl ⟨e.1.1, e.1.2, ?_⟩
    intro x hx
    rcases mem_full_hash_groups he x (hperm.mem_iff.mp hx) with ⟨h1, h2, _, _⟩
    exact ⟨h1, h2⟩
  | false =>
    rcases mem_groups_sizeonly hg with ⟨e, he, hlen, rfl⟩
    rcases mem_potential_duplicates he with ⟨_, hmem⟩
    have hperm := sortByPath_perm e.2
    refine ⟨by rw [hperm.length_eq]; exact hlen, sortByPath_pairwise e.2, ?_⟩
    refine Or.inr ⟨e.1, ?_⟩
    intro x hx
    rcases hmem x (hperm.mem_iff.mp hx) with ⟨h1, h2, h3⟩
    exact ⟨h2, h1, h3⟩

/-! ## Claim theorems: the duplicate-group invariants -/

/-- C5: every duplicate group emitted by `find_duplicates` (either mode, any
arrival order of the parallel hashing results) has 2+ members, all members
share identical `size` and `hash` fields, and members are ordered by path
ascending.  The hypothesis `hnone` captures the FileRecord lifecycle of the
data model: input records enter the pipeline with no `hash` key set (the
walker never sets one); the full-hash stage then sets it uniformly per
group. -/
theorem claim5_group_validity (md5 : List Nat → String) (fs : String → Option (List Nat))
    (fd : List FileRecord) (use : Bool) (qord ford : List FileRecord → List FileRecord)
    (hnone : ∀ f ∈ fd, f.hash = none)
    (g : List FileRecord) (hg : g ∈ (find_duplicatesOrd md5 fs fd use qord ford).2) :
    2 ≤ g.length ∧ (∀ a ∈ g, ∀ b ∈ g, a.size = b.size ∧ a.hash = b.hash) ∧
      g.Pairwise (fun a b => pathLe a b = true) := by
  rcases group_shape hg with ⟨hlen, hsorted, huniform⟩
  refine ⟨hlen, ?_, hsorted⟩
  intro a ha b hb
  rcases huniform with ⟨s, h, hall⟩ | ⟨s, hall⟩
  · rcases hall a ha with ⟨ha1, ha2⟩
    rcases hall b hb with ⟨hb1, hb2⟩
    exact ⟨ha1.trans hb1.symm, ha2.trans hb2.symm⟩
  · rcases hall a ha with ⟨ha1, ha2, _⟩
    rcases hall b hb with ⟨hb1, hb2, _⟩
    rw [hnone a ha2, hnone b hb2]
    exact ⟨ha1.trans hb1.symm, rfl⟩

/-- C6: in both modes, only files of size at least 1024 whose exact size is
shared by at least one other size-eligible file are ever handed to the
hashing stages, and no file of size below 1024 appears in any emitted
group. -/
theorem claim6_threshold (md5 : List Nat → String) (fs : String → Option (List Nat))
    (fd : List FileRecord) (use : Bool) (qord ford : List FileRecord → List FileRecord)
    (hq : ∀ l : List FileRecord, (qord l).Perm l)
    (hf : ∀ l : List FileRecord, (ford l).Perm l) :
    (∀ f ∈ hash_tasks fd, 1024 ≤ f.size ∧
      2 ≤ (fd.filter (fun g2 => g2.size = f.size && decide (1024 ≤ g2.size))).length) ∧
    (∀ f ∈ files_needing_full_hash md5 fs qord fd, 1024 ≤ f.size) ∧
    (∀ g ∈ (find_duplicatesOrd md5 fs fd use qord ford).2, ∀ x ∈ g, 1024 ≤ x.size) := by
  have htask : ∀ f ∈ hash_tasks fd, 1024 ≤ f.size ∧
      2 ≤ (fd.filter (fun g2 => g2.size = f.size && decide (1024 ≤ g2.size))).length := by
    intro f hf2
    rcases mem_hash_tasks.mp hf2 with ⟨_, h2, h3⟩
    exact ⟨h2, h3⟩
  have hneed : ∀ f ∈ files_needing_full_hash md5 fs qord fd, 1024 ≤ f.size := by
    intro f hf2
    rcases mem_files_needing hf2 with ⟨h1, _⟩
    exact (htask f ((hq _).mem_iff.mp h1)).1
  refine ⟨htask, hneed, ?_⟩
  intro g hg x hx
  cases use with
  | true =>
    rcases mem_groups_hash hg with ⟨e, he, _, rfl⟩
    rcases mem_full_hash_groups he x ((sortByPath_perm e.2).mem_iff.mp hx)
      with ⟨hsz, _, _, f, hfmem, hres⟩
    rcases fullResult_spec hres with ⟨_, _, _, hk, _⟩
    rw [hsz, hk]
    exact hneed f ((hf _).mem_iff.mp hfmem)
  | false =>
    rcases mem_groups_sizeonly hg with ⟨e, he, _, rfl⟩
    rcases mem_potential_duplicates he with ⟨_, hmem⟩
    exact (hmem x ((sortByPath_perm e.2).mem_iff.mp hx)).2.2

/-- C7: the reported wasted space — `sum(sum(f['size'] for f in group[1:]))`
over the emitted groups — equals the sum over groups of
`group[0].size * (len(group) - 1)`: one copy per group is never counted. -/
theorem claim7_wasted_space (md5 : List Nat → String) (fs : String → Option (List Nat))
    (fd : List FileRecord) (use : Bool) (qord ford : List FileRecord → List FileRecord) :
    wasted_space (find_duplicatesOrd md5 fs fd use qord ford).2 =
      (((find_duplicatesOrd md5 fs fd use qord ford).2).map
        (fun g => (g.headD default).size * (g.length - 1))).sum := by
  unfold wasted_space
  congr 1
  apply List.map_congr_left
  intro g hg
  rcases group_shape hg with ⟨hlen, _, huniform⟩
  have hne : g ≠ [] := by
    intro he
    rw [he] at hlen
    simp at hlen
  have huni : ∃ s, ∀ x ∈ g, x.size = s := by
    rcases huniform with ⟨s, _, hall⟩ | ⟨s, hall⟩
    · exact ⟨s, fun x hx => (hall x hx).1⟩
    · exact ⟨s, fun x hx => (hall x hx).1⟩
  rcases huni with ⟨s, hall⟩
  have hhead : (g.headD default).size = s := hall _ (headD_mem hne)
  have htail : ∀ x ∈ g.drop 1, x.size = s := by
    intro x hx
    exact hall x ((List.drop_sublist 1 g).mem hx)
  rw [sum_map_size_of_uniform htail, List.length_drop, hhead]
  ring

/-- C9: hashing failures are contained.  In hashing mode the model of
`find_duplicates` is a total function (no exception escapes: the source
catches `PermissionError/OSError/IOError` inside the two hash helpers and
maps them to `None`); every file occurring in the flat duplicates list or in
any emitted group was successfully read (`fs` returns `some`), and hence a
file whose reads fail (`fs` returns `none`) is excluded from both while all
other files are still processed. -/
theorem claim9_unreadable_excluded (md5 : List Nat → String)
    (fs : String → Option (List Nat)) (fd : List FileRecord)
    (qord ford : List FileRecord → List FileRecord) :
    (∀ g ∈ (find_duplicatesOrd md5 fs fd true qord ford).2, ∀ x ∈ g,
      (fs x.path).isSome) ∧
    (∀ x ∈ (find_duplicatesOrd md5 fs fd true qord ford).1, (fs x.path).isSome) ∧
    (∀ f : FileRecord, fs f.path = none →
      f ∉ (find_duplicatesOrd md5 fs fd true qord ford).1 ∧
      ∀ g ∈ (find_duplicatesOrd md5 fs fd true qord ford).2, f ∉ g) := by
  have hgroups : ∀ g ∈ (find_duplicatesOrd md5 fs fd true qord ford).2, ∀ x ∈ g,
      (fs x.path).isSome := by
    intro g hg x hx
    rcases mem_groups_hash hg with ⟨e, he, _, rfl⟩
    exact (mem_full_hash_groups he x ((sortByPath_perm e.2).mem_iff.mp hx)).2.2.1
  have hflat : ∀ x ∈ (find_duplicatesOrd md5 fs fd true qord ford).1,
      (fs x.path).isSome := by
    intro x hx
    have hx2 := (out_flat_perm md5 fs fd true qord ford).mem_iff.mp hx
    rcases List.mem_flatten.mp hx2 with ⟨g, hg, hxg⟩
    exact hgroups g hg x hxg
  refine ⟨hgroups, hflat, ?_⟩
  intro f hnone
  constructor
  · intro hmem
    have := hflat f hmem
    rw [hnone] at this
    cases this
  · intro g hg hmem
    have := hgroups g hg f hmem
    rw [hnone] at this
    cases this

/-- C10: in both modes the flat `duplicates` list is, up to the order induced
by the grouping loop (the final `duplicate_groups.sort` reorders only the
group list, not the flat list), exactly the members of the emitted groups:
it is a permutation of their concatenation, and its length is the sum of the
group lengths. -/
theorem claim10_flat_list (md5 : List Nat → String) (fs : String → Option (List Nat))
    (fd : List FileRecord) (use : Bool)
    (qord ford : List FileRecord → List FileRecord) :
    (find_duplicatesOrd md5 fs fd use qord ford).1.Perm
      ((find_duplicatesOrd md5 fs fd use qord ford).2.flatten) ∧
    (find_duplicatesOrd md5 fs fd use qord ford).1.length =
      (((find_duplicatesOrd md5 fs fd use qord ford).2).map (fun g => g.length)).sum := by
  refine ⟨out_flat_perm md5 fs fd use qord ford, ?_⟩
  rw [(out_flat_perm md5 fs fd use qord ford).length_eq]
  exact List.length_flatten _

/-! ## Qualification of a size bucket -/

theorem filter_size_eq_of_le {fd : List FileRecord} {s : Nat} (hs : 1024 ≤ s) :
    fd.filter (fun f => f.size = s && decide (1024 ≤ f.size)) =
      fd.filter (fun f => f.size = s) := by
  apply List.filter_congr
  intro f _
  by_cases h : f.size = s
  · simp [h, hs]
  · simp [h]

theorem qualifies_iff_mem_potential (fd : List FileRecord) (s : Nat) :
    (1024 ≤ s ∧ 2 ≤ (fd.filter (fun f => f.size = s)).length) ↔
      s ∈ (potential_duplicates fd).map Prod.fst := by
  constructor
  · rintro ⟨hs, hcount⟩
    have hcount2 : 2 ≤ (valsOf (sizePairs fd) s).length := by
      rw [valsOf_sizePairs, filter_size_eq_of_le hs]
      exact hcount
    have hne : valsOf (sizePairs fd) s ≠ [] := by
      intro he
      rw [he] at hcount2
      simp at hcount2
    have hkey : s ∈ (sizePairs fd).map Prod.fst := by
      rcases List.exists_mem_of_ne_nil _ hne with ⟨f, hf⟩
      unfold valsOf at hf
      rcases List.mem_map.mp hf with ⟨q, hq, rfl⟩
      rcases List.mem_filter.mp hq with ⟨hq2, hk⟩
      simp only [decide_eq_true_eq] at hk
      exact hk ▸ List.mem_map_of_mem Prod.fst hq2
    refine List.mem_map.mpr ⟨(s, valsOf (sizePairs fd) s), ?_, rfl⟩
    refine List.mem_filter.mpr ⟨(mem_groupPairs_iff _ _).mpr ⟨hkey, rfl⟩, ?_⟩
    simp only [decide_eq_true_eq]
    omega
  · intro hmem
    rcases List.mem_map.mp hmem with ⟨e, he, rfl⟩
    rcases mem_potential_duplicates he with ⟨hlen, hall⟩
    have hne : e.2 ≠ [] := by
      intro h
      rw [h] at hlen
      simp at hlen
    rcases List.exists_mem_of_ne_nil _ hne with ⟨f, hf⟩
    rcases hall f hf with ⟨_, hsz, h1024⟩
    refine ⟨hsz ▸ h1024, ?_⟩
    rcases List.mem_filter.mp he with ⟨he2, _⟩
    rcases (mem_groupPairs_iff _ _).mp he2 with ⟨_, hv⟩
    rw [hv, valsOf_sizePairs, filter_size_eq_of_le (hsz ▸ h1024)] at hlen
    exact hlen

theorem countP_key_eq_of_nodup [DecidableEq κ] {L : List (κ × β)}
    (h : (L.map Prod.fst).Nodup) (s : κ) :
    L.countP (fun e => e.1 = s) = if s ∈ L.map Prod.fst then 1 else 0 := by
  induction L with
  | nil => simp
  | cons e rest ih =>
    rw [List.map_cons] at h ⊢
    rcases List.nodup_cons.mp h with ⟨he, hrest⟩
    rw [List.countP_cons, ih hrest]
    by_cases hs : e.1 = s
    · subst hs
      rw [if_neg he, if_pos (List.mem_cons_self _ _)]
      simp
    · have hiff : s ∈ e.1 :: rest.map Prod.fst ↔ s ∈ rest.map Prod.fst := by
        rw [List.mem_cons]
        constructor
        · rintro (h2 | h2)
          · exact absurd h2.symm hs
          · exact h2
        · exact Or.inr
      rw [if_congr hiff rfl rfl]
      simp [hs]

/-! ## Claim C8: size-only mode -/

/-- The `/m`,`/n` filesystem of Scenario D: same size, different content. -/
def scenD_fs : String → Option (List Nat) :=
  fun p => if p = "/m" then some [0] else if p = "/n" then some [1] else none

/-- Scenario D file records: two 100000-byte files. -/
def scenD_m : FileRecord := { path := "/m", size := 100000 }

/-- Second Scenario D record. -/
def scenD_n : FileRecord := { path := "/n", size := 100000 }

/-- C8: with `use_md5 = False` the pipeline never consults file contents or
the hash function (its output is identical for every `md5`, `fs` and arrival
order), and it emits exactly one group per file size having at least two
files of size `≥ 1024`; concretely, Scenario D's two 100000-byte files of
different content form the single group `[/m, /n]`. -/
theorem claim8_sizeonly_mode (fd : List FileRecord) :
    (∀ (md5 md5' : List Nat → String) (fs fs' : String → Option (List Nat))
        (qord ford qord' ford' : List FileRecord → List FileRecord),
      find_duplicatesOrd md5 fs fd false qord ford =
        find_duplicatesOrd md5' fs' fd false qord' ford') ∧
    (∀ (md5 : List Nat → String) (fs : String → Option (List Nat))
        (qord ford : List FileRecord → List FileRecord) (s : Nat),
      ((find_duplicatesOrd md5 fs fd false qord ford).2.countP
          (fun g => (g.headD default).size = s)) =
        if 1024 ≤ s ∧ 2 ≤ (fd.filter (fun f => f.size = s)).length then 1 else 0) ∧
    (find_duplicatesOrd (fun _ => "") scenD_fs [scenD_m, scenD_n] false id id =
      ([scenD_m, scenD_n], [[scenD_m, scenD_n]])) := by
  refine ⟨?_, ?_, by decide⟩
  · intro md5 md5' fs fs' qord ford qord' ford'
    by_cases h1 : (potential_duplicates fd).isEmpty
    · rw [find_dup_guard1 h1, find_dup_guard1 h1]
    · rw [find_dup_false_eq h1, find_dup_false_eq h1]
  · intro md5 fs qord ford s
    have hnodup : ((potential_duplicates fd).map Prod.fst).Nodup := by
      have h2 := dedupFirst_nodup ((sizePairs fd).map Prod.fst)
      rw [← groupPairs_keys] at h2
      exact ((List.filter_sublist _).map Prod.fst).nodup h2
    by_cases h1 : (potential_duplicates fd).isEmpty
    · rw [find_dup_guard1 h1, if_neg]
      · rfl
      · intro hqual
        have h3 := (qualifies_iff_mem_potential fd s).mp hqual
        rw [List.isEmpty_iff.mp h1] at h3
        cases h3
    · have key : (find_duplicatesOrd md5 fs fd false qord ford).2 =
          sortGroups ((potential_duplicates fd).map (fun e => sortByPath e.2)) := by
        rw [find_dup_false_eq h1, extractAllBuckets_eq]
      have hpt : ∀ e ∈ potential_duplicates fd,
          decide (((sortByPath e.2).headD default).size = s) = decide (e.1 = s) := by
        intro e he
        rcases mem_potential_duplicates he with ⟨hlen, hall⟩
        have hne : sortByPath e.2 ≠ [] := by
          intro h
          have hlen2 := (sortByPath_perm e.2).length_eq
          rw [h] at hlen2
          simp only [List.length_nil] at hlen2
          omega
        have hhead := hall _ ((sortByPath_perm e.2).mem_iff.mp (headD_mem hne))
        simp only [decide_eq_decide]
        rw [hhead.2.1]
      have hcongr : List.countP
          ((fun g : List FileRecord => decide ((g.headD default).size = s)) ∘
            (fun e : Nat × List FileRecord => sortByPath e.2))
          (potential_duplicates fd) =
          List.countP (fun e : Nat × List FileRecord => decide (e.1 = s))
            (potential_duplicates fd) := by
        apply List.countP_congr
        intro e he
        have h4 := hpt e he
        constructor
        · intro h5
          rw [Function.comp_apply, h4] at h5
          exact h5
        · intro h5
          rw [Function.comp_apply, h4]
          exact h5
      rw [key, (sortGroups_perm _).countP_eq, List.countP_map, hcongr,
        countP_key_eq_of_nodup hnodup,
        if_congr (qualifies_iff_mem_potential fd s).symm rfl rfl]

/-! ## Claim C3: group ordering -/

/-- C3 (amended): in both modes and for every arrival order, the emitted
group list is sorted in descending order of the source's actual key
`len(group) * group[0]['size']` (`groupKey`); there is no path-based
secondary key — ties keep the grouping-loop order. -/
theorem claim3_group_sort_key (md5 : List Nat → String)
    (fs : String → Option (List Nat)) (fd : List FileRecord) (use : Bool)
    (qord ford : List FileRecord → List FileRecord) :
    (find_duplicatesOrd md5 fs fd use qord ford).2.Pairwise
      (fun a b => groupKey b ≤ groupKey a) := by
  by_cases h1 : (potential_duplicates fd).isEmpty
  · rw [find_dup_guard1 h1]
    simp
  cases use with
  | false =>
    rw [find_dup_false_eq h1]
    exact sortGroups_pairwise _
  | true =>
    by_cases h3 : (files_needing_full_hash md5 fs qord fd).isEmpty
    · rw [find_dup_guard3 h3]
      simp
    · rw [find_dup_true_eq h1 h3]
      exact sortGroups_pairwise _

/-- Five files forcing the size-×-count key to disagree with
wasted-space ordering: sizes 5000×2 (key 10000, wasted 5000) and 3000×3
(key 9000, wasted 6000). -/
def c3fd : List FileRecord :=
  [{ path := "/a", size := 5000 }, { path := "/b", size := 5000 },
   { path := "/c", size := 3000 }, { path := "/d", size := 3000 },
   { path := "/e", size := 3000 }]

/-- C3 (counterexample): `find_duplicates` does not sort groups by
`wastedSpace = size × (memberCount − 1)` descending.  On `c3fd` (size-only
mode, so no hashing is involved) the code emits the 5000-byte pair before
the 3000-byte triple because its key is `len * size`, yet the pair wastes
5000 bytes and the triple 6000. -/
theorem claim3_counterexample :
    (find_duplicates (fun _ => "") (fun _ => none) c3fd false).2 =
      [[{ path := "/a", size := 5000 }, { path := "/b", size := 5000 }],
       [{ path := "/c", size := 3000 }, { path := "/d", size := 3000 },
        { path := "/e", size := 3000 }]] ∧
    ¬ ((find_duplicates (fun _ => "") (fun _ => none) c3fd false).2.Pairwise
      (fun a b => (b.headD default).size * (b.length - 1) ≤
        (a.headD default).size * (a.length - 1))) := by
  constructor
  · decide
  · intro h
    have h2 := h
    rw [show (find_duplicates (fun _ => "") (fun _ => none) c3fd false).2 =
      [[{ path := "/a", size := 5000 }, { path := "/b", size := 5000 }],
       [{ path := "/c", size := 3000 }, { path := "/d", size := 3000 },
        { path := "/e", size := 3000 }]] from by decide] at h2
    rcases List.pairwise_cons.mp h2 with ⟨hfirst, _⟩
    have h3 := hfirst _ (List.mem_cons_self _ _)
    simp at h3

/-! ## Witnesses for the hypothesis-bearing claims -/

/-- Hash function used by concrete pipeline runs: distinct small byte lists
get distinct non-empty hex-like strings. -/
def wMd5 : List Nat → String :=
  fun l => String.mk ('h' :: l.map (fun n => Char.ofNat (97 + n % 26)))

/-- Filesystem with two identical readable files. -/
def wFs : String → Option (List Nat) :=
  fun p => if p = "/a" ∨ p = "/b" then some [0] else none

/-- First readable record. -/
def wRecA : FileRecord := { path := "/a", size := 2000 }

/-- Second readable record. -/
def wRecB : FileRecord := { path := "/b", size := 2000 }

/-- The group the pipeline produces from `wRecA`/`wRecB`: both enriched with
the full hash of content `[0]`. -/
def wGroup : List FileRecord :=
  [{ path := "/a", size := 2000, hash := some (wMd5 [0]) },
   { path := "/b", size := 2000, hash := some (wMd5 [0]) }]

/-- Witness for C5: the hypotheses of `claim5_group_validity` are satisfiable
at a concrete run whose single emitted group is `wGroup`. -/
theorem claim5_group_validity_witness :
    2 ≤ wGroup.length ∧
      (∀ a ∈ wGroup, ∀ b ∈ wGroup, a.size = b.size ∧ a.hash = b.hash) ∧
      wGroup.Pairwise (fun a b => pathLe a b = true) :=
  claim5_group_validity wMd5 wFs [wRecA, wRecB] true id id
    (by decide) wGroup (by decide)

/-- Witness for C6 at the same concrete run (identity arrival orders are
permutations). -/
theorem claim6_threshold_witness :
    (∀ f ∈ hash_tasks [wRecA, wRecB], 1024 ≤ f.size ∧
      2 ≤ ([wRecA, wRecB].filter
        (fun g2 => g2.size = f.size && decide (1024 ≤ g2.size))).length) ∧
    (∀ f ∈ files_needing_full_hash wMd5 wFs id [wRecA, wRecB], 1024 ≤ f.size) ∧
    (∀ g ∈ (find_duplicatesOrd wMd5 wFs [wRecA, wRecB] true id id).2, ∀ x ∈ g,
      1024 ≤ x.size) :=
  claim6_threshold wMd5 wFs [wRecA, wRecB] true id id
    (fun l => List.Perm.refl l) (fun l => List.Perm.refl l)

/-! ## Structural facts about `dirname` -/

theorem rstrip_sub (p : Char → Bool) (l : List Char) :
    ((l.reverse.dropWhile p).reverse) <+: l := by
  have h := List.dropWhile_suffix (l := l.reverse) p
  have h2 := List.reverse_prefix.mpr h
  rwa [List.reverse_reverse] at h2

theorem dirnameChars_sub (l : List Char) : dirnameChars l <+: l := by
  have hhead : ((l.reverse.dropWhile (fun c => !decide (c = '/'))).reverse) <+: l :=
    rstrip_sub _ l
  unfold dirnameChars
  by_cases hc : (l.reverse.dropWhile (fun c => c ≠ '/')).reverse ≠ [] ∧
      ¬ ((l.reverse.dropWhile (fun c => c ≠ '/')).reverse).all (fun c => c = '/')
  · rw [if_pos hc]
    exact (rstrip_sub _ _).trans (rstrip_sub _ l)
  · rw [if_neg hc]
    exact rstrip_sub _ l

theorem dirname_length_le (s : String) : (dirname s).length ≤ s.length :=
  (dirnameChars_sub s.data).length_le

theorem dirname_eq_or_lt (s : String) :
    dirname s = s ∨ (dirname s).length < s.length := by
  rcases Nat.lt_or_ge (dirname s).length s.length with h | h
  · exact Or.inr h
  · left
    have heq : (dirnameChars s.data).length = s.data.length :=
      le_antisymm (dirnameChars_sub s.data).length_le h
    exact String.ext ((dirnameChars_sub s.data).eq_of_length heq)

theorem dirname_empty : dirname "" = "" := rfl

theorem length_pos_of_ne_empty {s : String} (h : s ≠ "") : 1 ≤ s.length := by
  by_contra hc
  push_neg at hc
  have h0 : s.length = 0 := by omega
  have hd : s.data = [] := List.length_eq_zero.mp h0
  exact h (String.ext hd)

theorem dirnameIter_succ_outer (k : Nat) (s : String) :
    dirnameIter (k + 1) s = dirname (dirnameIter k s) := by
  induction k generalizing s with
  | zero => rfl
  | succ n ih =>
    show dirnameIter (n + 1) (dirname s) = dirname (dirnameIter (n + 1) s)
    rw [ih (dirname s)]
    rfl

theorem dirnameIter_add (a b : Nat) (s : String) :
    dirnameIter (a + b) s = dirnameIter a (dirnameIter b s) := by
  induction b generalizing s with
  | zero => rfl
  | succ n ih =>
    show dirnameIter (a + n) (dirname s) = dirnameIter a (dirnameIter (n + 1) s)
    exact ih (dirname s)

theorem dirnameIter_fix {s : String} (h : dirname s = s) (m : Nat) :
    dirnameIter m s = s := by
  induction m with
  | zero => rfl
  | succ n ih =>
    rw [dirnameIter_succ_outer, ih, h]

/-! ## The upward-marking walk -/

theorem markParents_nil_of_stop {S : List String} {par : String}
    (h : ¬ (par ≠ "" ∧ par ∈ S)) : ∀ fuel, markParents S par fuel = [] := by
  intro fuel
  cases fuel with
  | zero => rfl
  | succ n => rw [markParents, if_neg h]

theorem mem_markParents {S : List String} {par p : String} {fuel : Nat}
    (h : p ∈ markParents S par fuel) :
    p ∈ S ∧ p ≠ "" ∧ ∃ k, k < fuel ∧ p = dirnameIter k par := by
  induction fuel generalizing par with
  | zero => cases h
  | succ n ih =>
    rw [markParents] at h
    by_cases hc : par ≠ "" ∧ par ∈ S
    · rw [if_pos hc] at h
      rcases List.mem_cons.mp h with rfl | h2
      · exact ⟨hc.2, hc.1, 0, Nat.succ_pos n, rfl⟩
      · rcases ih h2 with ⟨h3, h4, k, hk, h5⟩
        exact ⟨h3, h4, k + 1, by omega, h5⟩
    · rw [if_neg hc] at h
      cases h

theorem markParents_complete {S : List String} :
    ∀ (k : Nat) (q : String) (fuel : Nat), 1 ≤ k → k ≤ fuel →
    (∀ j, 1 ≤ j → j ≤ k → dirnameIter j q ∈ S ∧ dirnameIter j q ≠ "") →
    dirnameIter k q ∈ markParents S (dirname q) fuel := by
  intro k
  induction k with
  | zero => intro q fuel h; omega
  | succ n ih =>
    intro q fuel hk hfuel hmem
    obtain ⟨fuel2, rfl⟩ : ∃ m, fuel = m + 1 := ⟨fuel - 1, by omega⟩
    rw [markParents, if_pos ?hc]
    case hc =>
      rcases hmem 1 le_rfl (by omega) with ⟨h1, h2⟩
      exact ⟨h2, h1⟩
    by_cases hn : n = 0
    · subst hn
      exact List.mem_cons_self _ _
    · apply List.mem_cons_of_mem
      exact ih (dirname q) fuel2 (by omega) (by omega)
        (fun j hj1 hj2 => hmem (j + 1) (by omega) (by omega))

/-! ## `parent_paths` versus the spec's ancestor relation -/

theorem mem_parentPaths {S : List String} {p : String} (h : p ∈ parentPaths S) :
    p ∈ S ∧ p ≠ "" ∧ ∃ q ∈ S, ∃ k, 1 ≤ k ∧ dirnameIter k q = p := by
  unfold parentPaths at h
  rcases List.mem_flatten.mp h with ⟨l, hl, hp⟩
  rcases List.mem_map.mp hl with ⟨q, hq, rfl⟩
  rcases mem_markParents hp with ⟨h1, h2, k, _, h3⟩
  exact ⟨h1, h2, q, hq, k + 1, by omega, h3.symm⟩

/-- On a chain whose consecutive iterates keep making progress, lengths drop
by at least one per step. -/
theorem length_drop_along_chain {q : String} {km : Nat}
    (hprog : ∀ j, j < km → dirnameIter (j + 1) q ≠ dirnameIter j q) :
    ∀ j, j ≤ km → (dirnameIter j q).length + j ≤ q.length := by
  intro j
  induction j with
  | zero => intro _; simp [dirnameIter]
  | succ n ih =>
    intro hj
    have h1 := ih (by omega)
    rcases dirname_eq_or_lt (dirnameIter n q) with h2 | h2
    · exact absurd (by rw [dirnameIter_succ_outer, h2]) (hprog n (by omega))
    · rw [dirnameIter_succ_outer]
      omega

theorem parentPaths_complete {S : List String} {p q : String}
    (hq : q ∈ S) (hp : p ∈ S) (hnemp : "" ∉ S)
    (hstep : ∀ r ∈ S, dirname r ≠ r)
    (hgap : ∀ r ∈ S, ∀ k, 1 ≤ k → k ≤ r.length → dirnameIter k r ∈ S →
      ∀ j, 1 ≤ j → j ≤ k → dirnameIter j r ∈ S)
    {k : Nat} (hk1 : 1 ≤ k) (hkp : dirnameIter k q = p) :
    p ∈ parentPaths S := by
  have hex : ∃ m, 1 ≤ m ∧ dirnameIter m q = p := ⟨k, hk1, hkp⟩
  classical
  let km := Nat.find hex
  obtain ⟨hkm1, hkmp⟩ := Nat.find_spec hex
  have hmin : ∀ m, m < km → ¬ (1 ≤ m ∧ dirnameIter m q = p) := fun m hm =>
    Nat.find_min hex hm
  have hprog : ∀ j, j < km → dirnameIter (j + 1) q ≠ dirnameIter j q := by
    intro j hj heq
    by_cases hj0 : j = 0
    · subst hj0
      exact hstep q hq (by simpa [dirnameIter] using heq)
    · have hfix : dirname (dirnameIter j q) = dirnameIter j q := by
        rw [← dirnameIter_succ_outer]; exact heq
      have : dirnameIter km q = dirnameIter j q := by
        have hsplit : km = (km - j) + j := by omega
        rw [hsplit, dirnameIter_add, dirnameIter_fix hfix]
      exact hmin j (by omega) ⟨by omega, by rw [← this]; exact hkmp⟩
  have hbound : (dirnameIter km q).length + km ≤ q.length :=
    length_drop_along_chain hprog km le_rfl
  have hkmlen : km ≤ q.length := by omega
  have hinner : ∀ j, 1 ≤ j → j ≤ km → dirnameIter j q ∈ S ∧ dirnameIter j q ≠ "" := by
    have hmemS : ∀ j, 1 ≤ j → j ≤ km → dirnameIter j q ∈ S :=
      hgap q hq km hkm1 hkmlen (hkmp ▸ hp)
    intro j hj1 hj2
    refine ⟨hmemS j hj1 hj2, fun he => ?_⟩
    exact hnemp ((hmemS j hj1 hj2) |> fun h => he ▸ h)
  have hmark := markParents_complete km q (q.length + 1) hkm1 (by omega) hinner
  unfold parentPaths
  refine List.mem_flatten.mpr ⟨markParents S (dirname q) (q.length + 1), ?_, ?_⟩
  · exact List.mem_map.mpr ⟨q, hq, rfl⟩
  · rw [hkmp] at hmark
    exact hmark

/-- Modelled from the spec (§4.1): a tracked directory path `P` is a parent
iff some tracked path lies strictly below it, i.e. `P` is reachable from that
path by walking up parent directories one `dirname` at a time. -/
def specIsParent (allPaths : List String) (p : String) : Prop :=
  p ∈ allPaths ∧ ∃ q ∈ allPaths, ∃ k, 1 ≤ k ∧ dirnameIter k q = p

theorem parentPaths_iff_spec {S : List String} (hnemp : "" ∉ S)
    (hstep : ∀ r ∈ S, dirname r ≠ r)
    (hgap : ∀ r ∈ S, ∀ k, 1 ≤ k → k ≤ r.length → dirnameIter k r ∈ S →
      ∀ j, 1 ≤ j → j ≤ k → dirnameIter j r ∈ S) (p : String) :
    p ∈ parentPaths S ↔ specIsParent S p := by
  constructor
  · intro h
    rcases mem_parentPaths h with ⟨h1, _, q, hq, k, hk1, hk2⟩
    exact ⟨h1, q, hq, k, hk1, hk2⟩
  · rintro ⟨hp, q, hq, k, hk1, hk2⟩
    exact parentPaths_complete hq hp hnemp hstep hgap hk1 hk2

/-! ## Leaf-list characterization of `calculate_actual_total` -/

theorem find?_path_eq {l : List DirRecord}
    (h : (l.map (fun f => f.path)).Nodup) {r : DirRecord} (hr : r ∈ l) :
    l.find? (fun f => f.path = r.path) = some r := by
  induction l with
  | nil => cases hr
  | cons x xs ih =>
    rw [List.map_cons] at h
    rcases List.nodup_cons.mp h with ⟨hx, hxs⟩
    rcases List.mem_cons.mp hr with rfl | hr2
    · exact List.find?_cons_of_pos _ (by simp)
    · rw [List.find?_cons_of_neg _ ?hneg]
      · exact ih hxs hr2
      case hneg =>
        simp only [decide_eq_true_eq]
        intro he
        exact hx (he ▸ List.mem_map_of_mem (fun f => f.path) hr2)

theorem lookupLast_of_nodup {fd : List DirRecord}
    (h : (fd.map (fun f => f.path)).Nodup) {r : DirRecord} (hr : r ∈ fd) :
    lookupLast fd r.path = some r := by
  unfold lookupLast
  apply find?_path_eq
  · rw [List.map_reverse]
    exact List.nodup_reverse.mpr h
  · exact List.mem_reverse.mpr hr

theorem filterMap_eq_self_of_some {l : List α} {g : α → Option α}
    (h : ∀ x ∈ l, g x = some x) : l.filterMap g = l := by
  induction l with
  | nil => rfl
  | cons x xs ih =>
    rw [List.filterMap_cons, h x (List.mem_cons_self x xs),
      ih (fun y hy => h y (List.mem_cons_of_mem x hy))]

theorem calc_actual_total_leaves {fd : List DirRecord}
    (hnd : (fd.map (fun f => f.path)).Nodup) :
    (calculate_actual_total fd).2 =
      fd.filter (fun r => r.path ∉ parentPaths (fd.map (fun f => f.path))) := by
  by_cases hfd : fd = []
  · subst hfd
    rfl
  · unfold calculate_actual_total
    rw [if_neg hfd]
    simp only
    rw [dedupFirst_eq_self hnd, List.filter_map, List.filterMap_map]
    apply filterMap_eq_self_of_some
    intro r hr
    exact lookupLast_of_nodup hnd ((List.filter_sublist fd).subset hr)

theorem calc_actual_total_sum (fd : List DirRecord) :
    (calculate_actual_total fd).1 =
      (((calculate_actual_total fd).2).map (fun f => f.size)).sum := by
  by_cases hfd : fd = []
  · subst hfd
    rfl
  · unfold calculate_actual_total
    rw [if_neg hfd]

/-! ## Claim C2: leaf classification of `calculate_actual_total` -/

/-- C2 (amended): when no tracked path is empty, none is a `dirname`
fixpoint (such as `/`, on which the source loop would not terminate), paths
are unique, and the tracked set has *no gaps* (every intermediate directory
between a tracked path and a tracked ancestor is itself tracked), a record
is returned as leaf/independent iff it is not a parent in the spec's sense
(no tracked path lies strictly below it), and `actualTotal` is the size sum
of exactly the returned leaf records; empty input yields `(0, [])`.  The
gap hypothesis is necessary: see the counterexample, where the upward walk
stops at the untracked `/x/y` and `/x` is wrongly kept as a leaf. -/
theorem claim2_leaf_classification (fd : List DirRecord)
    (hnd : (fd.map (fun f => f.path)).Nodup)
    (hnemp : "" ∉ fd.map (fun f => f.path))
    (hstep : ∀ p ∈ fd.map (fun f => f.path), dirname p ≠ p)
    (hgap : ∀ p ∈ fd.map (fun f => f.path), ∀ k, 1 ≤ k → k ≤ p.length →
      dirnameIter k p ∈ fd.map (fun f => f.path) →
      ∀ j, 1 ≤ j → j ≤ k → dirnameIter j p ∈ fd.map (fun f => f.path)) :
    (calculate_actual_total fd).1 =
      (((calculate_actual_total fd).2).map (fun f => f.size)).sum ∧
    (∀ r : DirRecord, r ∈ (calculate_actual_total fd).2 ↔
      r ∈ fd ∧ ¬ specIsParent (fd.map (fun f => f.path)) r.path) ∧
    calculate_actual_total [] = (0, []) := by
  refine ⟨calc_actual_total_sum fd, ?_, rfl⟩
  intro r
  rw [calc_actual_total_leaves hnd, List.mem_filter]
  constructor
  · rintro ⟨h1, h2⟩
    simp only [decide_eq_true_eq] at h2
    refine ⟨h1, fun hspec => h2 ?_⟩
    exact (parentPaths_iff_spec hnemp hstep hgap r.path).mpr hspec
  · rintro ⟨h1, h2⟩
    refine ⟨h1, ?_⟩
    simp only [decide_eq_true_eq]
    intro hmem
    exact h2 ((parentPaths_iff_spec hnemp hstep hgap r.path).mp hmem)

/-- The gap input of C2: `/x/y` is untracked, so the source's upward walk
from `/x/y/z` stops immediately. -/
def c2recX : DirRecord := { path := "/x", size := 1000 }

/-- Deep record of the gap input. -/
def c2recZ : DirRecord := { path := "/x/y/z", size := 400 }

/-- C2 (counterexample): on `{/x, /x/y/z}` the code counts `/x` as a leaf and
returns `1400 = 1000 + 400`, although `/x` is an ancestor of the tracked
`/x/y/z` (formally `specIsParent`), which the claim says must exclude it. -/
theorem claim2_counterexample :
    (calculate_actual_total [c2recX, c2recZ]).1 = 1400 ∧
    c2recX ∈ (calculate_actual_total [c2recX, c2recZ]).2 ∧
    specIsParent ["/x", "/x/y/z"] "/x" := by
  refine ⟨by decide, by decide, by decide, ?_⟩
  exact ⟨"/x/y/z", by decide, 2, by omega, by decide⟩

/-- Witness for C2 at the gap-free input `{/x, /x/y}`. -/
theorem claim2_leaf_classification_witness :
    ((calculate_actual_total [{ path := "/x", size := 1000 },
        { path := "/x/y", size := 400 }]).1 =
      (((calculate_actual_total [{ path := "/x", size := 1000 },
        { path := "/x/y", size := 400 }]).2).map (fun f => f.size)).sum ∧
    (∀ r : DirRecord,
      r ∈ (calculate_actual_total [{ path := "/x", size := 1000 },
        { path := "/x/y", size := 400 }]).2 ↔
      r ∈ [{ path := "/x", size := 1000 }, { path := "/x/y", size := 400 }] ∧
        ¬ specIsParent (([{ path := "/x", size := 1000 },
          { path := "/x/y", size := 400 }] : List DirRecord).map (fun f => f.path))
          r.path) ∧
    calculate_actual_total [] = (0, [])) :=
  claim2_leaf_classification
    [{ path := "/x", size := 1000 }, { path := "/x/y", size := 400 }]
    (by decide) (by decide) (by decide)
    (by decide)

/-! ## Claim C1: two nested records -/

/-- C1 (amended): for exactly two records where `B` is a *direct* child of
`A` (`dirname B.path = A.path`), the code marks `A` — the parent — and keeps
`B`: `actualTotal = B.size` and the leaf list is `[B]`.  (The spec's claim
that the result is `A.size` with leaf set `{A}` is refuted by the
counterexample; so is "anywhere below": with an untracked intermediate
directory the walk stops and both records are kept, see C2.)  The last two
hypotheses rule out degenerate paths (`dirname A.path` is neither `A.path`
itself — e.g. `A.path = "/"`, on which the source loop would diverge — nor
`B.path`). -/
theorem claim1_two_records (A B : DirRecord)
    (hchild : dirname B.path = A.path)
    (hAB : A.path ≠ B.path)
    (hA1 : dirname A.path ≠ A.path)
    (hA2 : dirname A.path ≠ B.path) :
    calculate_actual_total [A, B] = (B.size, [B]) := by
  have hApos : A.path ≠ "" := by
    intro h
    exact hA1 (by rw [h]; rfl)
  have hBpos : B.path ≠ "" := by
    intro h
    rw [h] at hchild
    exact hApos (by rw [← hchild]; rfl)
  have hS : dedupFirst ([A, B].map (fun f => f.path)) = [A.path, B.path] := by
    apply dedupFirst_eq_self
    simp [hAB]
  have hdAnot : dirname A.path ∉ [A.path, B.path] := by
    intro h
    rcases List.mem_cons.mp h with h2 | h2
    · exact hA1 h2
    · rcases List.mem_cons.mp h2 with h3 | h3
      · exact hA2 h3
      · cases h3
  have hmp1 : ∀ fuel, markParents [A.path, B.path] (dirname A.path) fuel = [] := by
    apply markParents_nil_of_stop
    rintro ⟨_, hmem⟩
    exact hdAnot hmem
  have hmp2 : markParents [A.path, B.path] (dirname B.path) (B.path.length + 1) =
      [A.path] := by
    rw [hchild, markParents,
      if_pos ⟨hApos, List.mem_cons_self _ _⟩]
    have hfuel : B.path.length = (B.path.length - 1) + 1 := by
      have := length_pos_of_ne_empty hBpos
      omega
    rw [congrArg (markParents [A.path, B.path] (dirname A.path)) hfuel, markParents,
      if_neg (by rintro ⟨_, hmem⟩; exact hdAnot hmem)]
  have hpp : parentPaths [A.path, B.path] = [A.path] := by
    unfold parentPaths
    rw [List.map_cons, List.map_cons, List.map_nil, hmp1, hmp2]
    rfl
  unfold calculate_actual_total
  rw [if_neg (by simp)]
  simp only
  rw [hS, hpp]
  have hBA : B.path ≠ A.path := fun h => hAB h.symm
  have hfilter : ([A.path, B.path].filter (fun p => p ∉ [A.path])) = [B.path] := by
    rw [List.filter_cons, List.filter_cons]
    rw [if_neg (by simp), if_pos (by simp [hBA])]
    rfl
  rw [hfilter]
  have hlook : lookupLast [A, B] B.path = some B := by
    unfold lookupLast
    show List.find? _ [B, A] = some B
    exact List.find?_cons_of_pos _ (by simp)
  rw [List.filterMap_cons, hlook, List.filterMap_nil]
  simp

/-- C1 (counterexample): on the claim's own concrete scenario
`[{/x, 1000}, {/x/y, 400}]` the code returns `actualTotal = 400` with leaf
list `[{/x/y, 400}]` — the total is `B.size`, not `A.size = 1000`, and `B`
*does* appear in the leaf set (indeed it is the only leaf). -/
theorem claim1_counterexample :
    (calculate_actual_total [{ path := "/x", size := 1000 },
        { path := "/x/y", size := 400 }]).1 ≠ 1000 ∧
    ({ path := "/x/y", size := 400 } : DirRecord) ∈
      (calculate_actual_total [{ path := "/x", size := 1000 },
        { path := "/x/y", size := 400 }]).2 ∧
    calculate_actual_total [{ path := "/x", size := 1000 },
        { path := "/x/y", size := 400 }] =
      (400, [{ path := "/x/y", size := 400 }]) := by
  refine ⟨by decide, by decide, by decide⟩

/-- Witness for C1 at the concrete direct-child input. -/
theorem claim1_two_records_witness :
    calculate_actual_total [{ path := "/x", size := 1000 },
        { path := "/x/y", size := 400 }] =
      (({ path := "/x/y", size := 400 } : DirRecord).size,
        [{ path := "/x/y", size := 400 }]) :=
  claim1_two_records { path := "/x", size := 1000 } { path := "/x/y", size := 400 }
    (by decide) (by decide) (by decide) (by decide)

/-! ## Permutation machinery for arrival-order invariance (C4) -/

theorem filter_append_perm_of_disjoint {p r : α → Bool}
    (h : ∀ x, ¬(p x = true ∧ r x = true)) (xs : List α) :
    (xs.filter p ++ xs.filter r).Perm (xs.filter (fun x => p x || r x)) := by
  induction xs with
  | nil => simp
  | cons x xs ih =>
    rw [List.filter_cons, List.filter_cons, List.filter_cons]
    by_cases hp : p x = true
    · have hr : ¬ r x = true := fun hr => h x ⟨hp, hr⟩
      rw [if_pos hp, if_neg hr, if_pos (by simp [hp])]
      exact ih.cons x
    · by_cases hr : r x = true
      · rw [if_neg hp, if_pos hr, if_pos (by simp [hr])]
        exact (List.perm_middle).trans (ih.cons x)
      · rw [if_neg hp, if_neg hr, if_neg (by simp [hp, hr])]
        exact ih

theorem flatten_filter_fst_perm [DecidableEq κ] (ps : List (κ × α)) (L : List κ)
    (hL : L.Nodup) :
    ((L.map (fun s => ps.filter (fun x => x.1 = s))).flatten).Perm
      (ps.filter (fun x => decide (x.1 ∈ L))) := by
  induction L with
  | nil => simp
  | cons s L ih =>
    rcases List.nodup_cons.mp hL with ⟨hs, hL2⟩
    rw [List.map_cons, List.flatten_cons]
    refine (List.Perm.append (List.Perm.refl _) (ih hL2)).trans ?_
    refine (filter_append_perm_of_disjoint ?_ ps).trans ?_
    · rintro x ⟨ha, hb⟩
      simp only [decide_eq_true_eq] at ha hb
      exact hs (ha ▸ hb)
    · rw [List.filter_congr (fun x _ => ?_)]
      simp [List.mem_cons]

theorem flatten_map_congr_pointwise {L : List κ} {g g2 : κ → List α}
    (hg : ∀ k ∈ L, (g k).Perm (g2 k)) :
    ((L.map g).flatten).Perm ((L.map g2).flatten) := by
  induction L with
  | nil => simp
  | cons k L ih =>
    rw [List.map_cons, List.map_cons, List.flatten_cons, List.flatten_cons]
    exact List.Perm.append (hg k (List.mem_cons_self k L))
      (ih (fun x hx => hg x (List.mem_cons_of_mem k hx)))

theorem flatten_map_perm_congr {L L2 : List κ} {g g2 : κ → List α}
    (hL : L.Perm L2) (hg : ∀ k ∈ L, (g k).Perm (g2 k)) :
    ((L.map g).flatten).Perm ((L2.map g2).flatten) :=
  (flatten_map_congr_pointwise hg).trans ((hL.map g2).flatten)

theorem flatten_vals_perm [DecidableEq κ] (ps : List (κ × α)) (L : List κ)
    (hL : L.Nodup) :
    ((L.map (fun k => valsOf ps k)).flatten).Perm
      ((ps.filter (fun x => decide (x.1 ∈ L))).map Prod.snd) := by
  have h1 : (L.map (fun k => valsOf ps k)) =
      ((L.map (fun k => ps.filter (fun x => x.1 = k))).map (List.map Prod.snd)) := by
    rw [List.map_map]
    rfl
  rw [h1, ← List.map_flatten]
  exact (flatten_filter_fst_perm ps L hL).map Prod.snd

theorem filterMap_path_keep {F : FileRecord → Option ((Nat × String) × FileRecord)}
    (hF : ∀ f k x, F f = some (k, x) → x.path = f.path) (l : List FileRecord) :
    ((l.filterMap F).map (fun q => q.2.path)).Sublist
      (l.map (fun f => f.path)) := by
  induction l with
  | nil => simp
  | cons f l ih =>
    rw [List.filterMap_cons, List.map_cons]
    cases hf : F f with
    | none => exact ih.cons _
    | some q =>
      obtain ⟨k, x⟩ := q
      rw [List.map_cons, hF f k x hf]
      exact ih.cons₂ _

theorem sizePairs_snd (fd : List FileRecord) :
    (sizePairs fd).map Prod.snd = fd.filter (fun f => 1024 ≤ f.size) := by
  induction fd with
  | nil => rfl
  | cons f fd ih =>
    unfold sizePairs at ih ⊢
    rw [List.filterMap_cons, List.filter_cons]
    by_cases h : 1024 ≤ f.size
    · rw [if_pos h, List.map_cons, ih, if_pos (by simpa using h)]
    · rw [if_neg h, ih, if_neg (by simpa using h)]

/-! ### Normal forms of the stage outputs -/

theorem potential_normal (fd : List FileRecord) :
    potential_duplicates fd =
      ((dedupFirst ((sizePairs fd).map Prod.fst)).filter
        (fun k => 1 < (valsOf (sizePairs fd) k).length)).map
        (fun k => (k, valsOf (sizePairs fd) k)) := by
  unfold potential_duplicates size_groups
  rw [groupPairs_eq, List.filter_map]
  rfl

theorem hash_tasks_normal (fd : List FileRecord) :
    hash_tasks fd =
      (((dedupFirst ((sizePairs fd).map Prod.fst)).filter
        (fun k => 1 < (valsOf (sizePairs fd) k).length)).map
        (fun k => valsOf (sizePairs fd) k)).flatten := by
  unfold hash_tasks
  rw [potential_normal, List.map_map]
  rfl

theorem files_needing_normal (md5 : List Nat → String)
    (fs : String → Option (List Nat)) (qord : List FileRecord → List FileRecord)
    (fd : List FileRecord) :
    files_needing_full_hash md5 fs qord fd =
      (((dedupFirst ((quickPairs md5 fs qord fd).map Prod.fst)).filter
        (fun k => 2 ≤ (valsOf (quickPairs md5 fs qord fd) k).length)).map
        (fun k => valsOf (quickPairs md5 fs qord fd) k)).flatten := by
  unfold files_needing_full_hash quick_hash_groups
  rw [groupPairs_eq, List.filter_map, List.map_map]
  rfl

theorem extract_groups_normal (ps : List ((Nat × String) × FileRecord)) :
    (extractGroups (groupPairs ps)).2 =
      ((dedupFirst (ps.map Prod.fst)).filter
        (fun k => 2 ≤ (valsOf ps k).length)).map
        (fun k => sortByPath (valsOf ps k)) := by
  rw [extractGroups_eq, groupPairs_eq, List.filter_map, List.map_map]
  rfl

/-! ### Nodup-path propagation through the stages -/

theorem nodup_paths_of_vals_flatten [DecidableEq κ] {ps : List (κ × FileRecord)}
    {L : List κ} (hL : L.Nodup)
    (hps : (ps.map (fun q => q.2.path)).Nodup) :
    (((L.map (fun k => valsOf ps k)).flatten).map (fun f => f.path)).Nodup := by
  have hperm := (flatten_vals_perm ps L hL).map (fun f => f.path)
  refine (hperm.nodup_iff).mpr ?_
  have hsub : (((ps.filter (fun x => decide (x.1 ∈ L))).map Prod.snd).map
      (fun f => f.path)).Sublist (ps.map (fun q => q.2.path)) := by
    rw [List.map_map]
    exact (List.filter_sublist ps).map _
  exact hsub.nodup hps

theorem nodup_paths_hash_tasks {fd : List FileRecord}
    (h : (fd.map (fun f => f.path)).Nodup) :
    ((hash_tasks fd).map (fun f => f.path)).Nodup := by
  rw [hash_tasks_normal]
  apply nodup_paths_of_vals_flatten
  · exact (dedupFirst_nodup _).filter _
  · have h1 : ((sizePairs fd).map (fun q => q.2.path)).Sublist
        (fd.map (fun f => f.path)) := by
      have h2 : ((sizePairs fd).map (fun q => q.2.path)) =
          ((sizePairs fd).map Prod.snd).map (fun f => f.path) := by
        rw [List.map_map]
        rfl
      rw [h2, sizePairs_snd]
      exact (List.filter_sublist fd).map _
    exact h1.nodup h

theorem nodup_paths_quickPairs {md5 : List Nat → String}
    {fs : String → Option (List Nat)} {qord : List FileRecord → List FileRecord}
    {fd : List FileRecord} (hq : ∀ l : List FileRecord, (qord l).Perm l)
    (h : (fd.map (fun f => f.path)).Nodup) :
    ((quickPairs md5 fs qord fd).map (fun q => q.2.path)).Nodup := by
  have hsub := filterMap_path_keep
    (F := quickResult md5 fs)
    (fun f k x hx => by rw [(quickResult_spec hx).1]) (qord (hash_tasks fd))
  refine hsub.nodup ?_
  exact (((hq (hash_tasks fd)).map (fun f => f.path)).nodup_iff).mpr
    (nodup_paths_hash_tasks h)

theorem nodup_paths_files_needing {md5 : List Nat → String}
    {fs : String → Option (List Nat)} {qord : List FileRecord → List FileRecord}
    {fd : List FileRecord} (hq : ∀ l : List FileRecord, (qord l).Perm l)
    (h : (fd.map (fun f => f.path)).Nodup) :
    ((files_needing_full_hash md5 fs qord fd).map (fun f => f.path)).Nodup := by
  rw [files_needing_normal]
  apply nodup_paths_of_vals_flatten
  · exact (dedupFirst_nodup _).filter _
  · exact nodup_paths_quickPairs hq h

theorem nodup_paths_fullPairs {md5 : List Nat → String}
    {fs : String → Option (List Nat)} {qord ford : List FileRecord → List FileRecord}
    {fd : List FileRecord} (hq : ∀ l : List FileRecord, (qord l).Perm l)
    (hf : ∀ l : List FileRecord, (ford l).Perm l)
    (h : (fd.map (fun f => f.path)).Nodup) :
    ((fullPairs md5 fs qord ford fd).map (fun q => q.2.path)).Nodup := by
  have hsub := filterMap_path_keep
    (F := fullResult md5 fs)
    (fun f k x hx => (fullResult_spec hx).2.2.1)
    (ford (files_needing_full_hash md5 fs qord fd))
  refine hsub.nodup ?_
  exact (((hf _).map (fun f => f.path)).nodup_iff).mpr
    (nodup_paths_files_needing hq h)

theorem nodup_paths_valsOf [DecidableEq κ] {ps : List (κ × FileRecord)}
    (h : (ps.map (fun q => q.2.path)).Nodup) (k : κ) :
    ((valsOf ps k).map (fun f => f.path)).Nodup := by
  have hsub : ((valsOf ps k).map (fun f => f.path)).Sublist
      (ps.map (fun q => q.2.path)) := by
    unfold valsOf
    rw [List.map_map]
    exact (List.filter_sublist ps).map _
  exact hsub.nodup h

theorem perm_isEmpty_eq {l l2 : List α} (h : l.Perm l2) : l.isEmpty = l2.isEmpty := by
  cases l with
  | nil =>
    cases l2 with
    | nil => rfl
    | cons y ys => exact absurd h.length_eq (by simp)
  | cons x xs =>
    cases l2 with
    | nil => exact absurd h.length_eq (by simp)
    | cons y ys => rfl

theorem extractGroups_fst (d : List ((Nat × String) × List FileRecord)) :
    (extractGroups d).1 = (extractGroups d).2.flatten := by
  rw [extractGroups_eq]

/-- Core of C4: for any permutation arrival orders, the pre-sort group list
of the hashing pipeline is a permutation (group by group, with identical
member lists) of the submission-order one, and so is the surviving-file
set of the quick-hash stage. -/
theorem groups_pre_perm (md5 : List Nat → String) (fs : String → Option (List Nat))
    (fd : List FileRecord) (qord ford : List FileRecord → List FileRecord)
    (hq : ∀ l : List FileRecord, (qord l).Perm l)
    (hf : ∀ l : List FileRecord, (ford l).Perm l)
    (hnd : (fd.map (fun f => f.path)).Nodup) :
    (extractGroups (full_hash_groups md5 fs qord ford fd)).2.Perm
      (extractGroups (full_hash_groups md5 fs id id fd)).2 ∧
    (files_needing_full_hash md5 fs qord fd).Perm
      (files_needing_full_hash md5 fs id fd) := by
  have hqp : (quickPairs md5 fs qord fd).Perm (quickPairs md5 fs id fd) :=
    List.Perm.filterMap _ (hq (hash_tasks fd))
  have hvalsq : ∀ k, (valsOf (quickPairs md5 fs qord fd) k).Perm
      (valsOf (quickPairs md5 fs id fd) k) :=
    fun k => (hqp.filter _).map _
  have hfn : (files_needing_full_hash md5 fs qord fd).Perm
      (files_needing_full_hash md5 fs id fd) := by
    rw [files_needing_normal, files_needing_normal]
    have hLeq : ((dedupFirst ((quickPairs md5 fs qord fd).map Prod.fst)).filter
        (fun k => 2 ≤ (valsOf (quickPairs md5 fs qord fd) k).length)) =
        ((dedupFirst ((quickPairs md5 fs qord fd).map Prod.fst)).filter
        (fun k => 2 ≤ (valsOf (quickPairs md5 fs id fd) k).length)) :=
      List.filter_congr (fun k _ => by rw [(hvalsq k).length_eq])
    rw [hLeq]
    exact flatten_map_perm_congr
      ((dedupFirst_perm (hqp.map Prod.fst)).filter _)
      (fun k _ => hvalsq k)
  have hfa : (ford (files_needing_full_hash md5 fs qord fd)).Perm
      (files_needing_full_hash md5 fs id fd) :=
    (hf _).trans hfn
  have hfp : (fullPairs md5 fs qord ford fd).Perm (fullPairs md5 fs id id fd) :=
    (List.Perm.filterMap _ hfa)
  have hvalsf : ∀ k, (valsOf (fullPairs md5 fs qord ford fd) k).Perm
      (valsOf (fullPairs md5 fs id id fd) k) :=
    fun k => (hfp.filter _).map _
  have hndfp : ((fullPairs md5 fs id id fd).map (fun q => q.2.path)).Nodup :=
    nodup_paths_fullPairs (fun l => List.Perm.refl l) (fun l => List.Perm.refl l) hnd
  refine ⟨?_, hfn⟩
  unfold full_hash_groups
  rw [extract_groups_normal, extract_groups_normal]
  have hLeq : ((dedupFirst ((fullPairs md5 fs qord ford fd).map Prod.fst)).filter
      (fun k => 2 ≤ (valsOf (fullPairs md5 fs qord ford fd) k).length)) =
      ((dedupFirst ((fullPairs md5 fs qord ford fd).map Prod.fst)).filter
      (fun k => 2 ≤ (valsOf (fullPairs md5 fs id id fd) k).length)) :=
    List.filter_congr (fun k _ => by rw [(hvalsf k).length_eq])
  rw [hLeq]
  rw [List.map_congr_left (fun k _ =>
    sortByPath_eq_of_perm (valsOf (fullPairs md5 fs id id fd) k)
      (valsOf (fullPairs md5 fs qord ford fd) k) (hvalsf k)
      (nodup_paths_valsOf hndfp k))]
  exact ((dedupFirst_perm (hfp.map Prod.fst)).filter _).map _

/-- C4 (amended): in hashing mode, for any arrival orders of the two
parallel stages (any permutations of the submission order) and
duplicate-free input paths, the flat duplicates list and the group list are
permutations of the submission-order results, with every individual group's
membership and member order identical; moreover if no two emitted groups tie
on the sort key `len * size`, the ordered group list is exactly identical.
(Equality of the group order does not hold in general: ties between groups
are broken by dict insertion order, which depends on arrival order — see
the counterexample.) -/
theorem claim4_determinism (md5 : List Nat → String) (fs : String → Option (List Nat))
    (fd : List FileRecord) (qord ford : List FileRecord → List FileRecord)
    (hq : ∀ l : List FileRecord, (qord l).Perm l)
    (hf : ∀ l : List FileRecord, (ford l).Perm l)
    (hnd : (fd.map (fun f => f.path)).Nodup) :
    (find_duplicatesOrd md5 fs fd true qord ford).1.Perm
      (find_duplicates md5 fs fd true).1 ∧
    (find_duplicatesOrd md5 fs fd true qord ford).2.Perm
      (find_duplicates md5 fs fd true).2 ∧
    ((find_duplicates md5 fs fd true).2.Pairwise
        (fun a b => groupKey a ≠ groupKey b) →
      (find_duplicatesOrd md5 fs fd true qord ford).2 =
        (find_duplicates md5 fs fd true).2) := by
  rcases groups_pre_perm md5 fs fd qord ford hq hf hnd with ⟨hG, hfn⟩
  unfold find_duplicates
  by_cases h1 : (potential_duplicates fd).isEmpty
  · rw [@find_dup_guard1 md5 fs fd true qord ford h1,
      @find_dup_guard1 md5 fs fd true id id h1]
    exact ⟨List.Perm.refl _, List.Perm.refl _, fun _ => rfl⟩
  by_cases h3 : (files_needing_full_hash md5 fs id fd).isEmpty
  · have h3b : (files_needing_full_hash md5 fs qord fd).isEmpty := by
      rw [perm_isEmpty_eq hfn]
      exact h3
    rw [@find_dup_guard3 md5 fs fd qord ford h3b,
      @find_dup_guard3 md5 fs fd id id h3]
    exact ⟨List.Perm.refl _, List.Perm.refl _, fun _ => rfl⟩
  have h3b : ¬ (files_needing_full_hash md5 fs qord fd).isEmpty := by
    rw [perm_isEmpty_eq hfn]
    exact h3
  rw [find_dup_true_eq h1 h3b, find_dup_true_eq h1 h3]
  have hperm2 : (sortGroups (extractGroups
      (full_hash_groups md5 fs qord ford fd)).2).Perm
      (sortGroups (extractGroups (full_hash_groups md5 fs id id fd)).2) :=
    ((sortGroups_perm _).trans hG).trans (sortGroups_perm _).symm
  refine ⟨?_, hperm2, ?_⟩
  · rw [extractGroups_fst, extractGroups_fst]
    exact hG.flatten
  · intro hdist
    have hRsym : ∀ {x y : List FileRecord},
        groupKey x ≠ groupKey y → groupKey y ≠ groupKey x := fun h => h.symm
    have hdist2 : (sortGroups (extractGroups
        (full_hash_groups md5 fs qord ford fd)).2).Pairwise
        (fun a b => groupKey a ≠ groupKey b) :=
      hdist.perm hperm2.symm hRsym
    refine @List.eq_of_perm_of_sorted _ (fun a b => groupKey b < groupKey a)
      ⟨fun a b hab hba => absurd hba (Nat.lt_asymm hab)⟩ _ _ hperm2 ?_ ?_
    · exact ((sortGroups_pairwise _).and hdist2).imp
        (fun hx => lt_of_le_of_ne hx.1 (fun he => hx.2 he.symm))
    · exact ((sortGroups_pairwise _).and hdist).imp
        (fun hx => lt_of_le_of_ne hx.1 (fun he => hx.2 he.symm))

/-- Four files of one size in two content classes, producing two groups that
tie on the sort key `len * size`. -/
def c4fd : List FileRecord :=
  [{ path := "/a1", size := 2048 }, { path := "/a2", size := 2048 },
   { path := "/b1", size := 2048 }, { path := "/b2", size := 2048 }]

/-- Contents for `c4fd`: the `a` files share one content, the `b` files
another. -/
def c4fs : String → Option (List Nat) :=
  fun p => if p = "/a1" ∨ p = "/a2" then some [0]
    else if p = "/b1" ∨ p = "/b2" then some [1] else none

/-- C4 (counterexample): arrival order does affect the output.  Reversing
the arrival order of the full-hash stage — a permutation of the submission
order — swaps the two tied groups, so the ordered group lists of the two
runs differ. -/
theorem claim4_counterexample :
    (∀ l : List FileRecord, (List.reverse l).Perm l) ∧
    (find_duplicatesOrd wMd5 c4fs c4fd true id List.reverse).2 ≠
      (find_duplicatesOrd wMd5 c4fs c4fd true id id).2 := by
  refine ⟨fun l => List.reverse_perm l, ?_⟩
  decide

/-- Witness for C4 with the reversed arrival order on both stages. -/
theorem claim4_determinism_witness :
    (find_duplicatesOrd wMd5 c4fs c4fd true List.reverse List.reverse).1.Perm
      (find_duplicates wMd5 c4fs c4fd true).1 ∧
    (find_duplicatesOrd wMd5 c4fs c4fd true List.reverse List.reverse).2.Perm
      (find_duplicates wMd5 c4fs c4fd true).2 ∧
    ((find_duplicates wMd5 c4fs c4fd true).2.Pairwise
        (fun a b => groupKey a ≠ groupKey b) →
      (find_duplicatesOrd wMd5 c4fs c4fd true List.reverse List.reverse).2 =
        (find_duplicates wMd5 c4fs c4fd true).2) :=
  claim4_determinism wMd5 c4fs c4fd List.reverse List.reverse
    (fun l => List.reverse_perm l) (fun l => List.reverse_perm l) (by decide)

end DiskAnalyzer
